import Mathlib

/-!
Shallow embedding of `src/lib/rbtree.c` (an AVL-tree replacement for the
rbtree API) together with the insertion driver of `src/lib/avl_test.c`.

Nodes live in a heap modelled as a total function from pointers (`Nat`)
to node records; a null pointer is `Option.none`.  Every C function is
translated statement by statement, reading and writing heap fields at
the same program points as the C code.  Loops are given explicit fuel.
-/

/-- Pointers are natural numbers; `none` plays the role of NULL. -/
abbrev Ptr := Nat

/-- struct avl_node: parent/left/right links and the stored height.
The C field is `int8_t`; heights of the trees considered stay far from
the 8-bit range, so it is modelled as `Int`. -/
structure AvlNode where
  avl_parent : Option Ptr
  avl_left   : Option Ptr
  avl_right  : Option Ptr
  avl_height : Int
deriving Repr, DecidableEq

/-- The heap: a total map from pointers to node records. -/
abbrev Heap := Ptr → AvlNode

/-- Write a whole node record at pointer `p`. -/
def hupd (h : Heap) (p : Ptr) (v : AvlNode) : Heap :=
  fun q => if q = p then v else h q

/-- Field store `p->avl_parent = v`. -/
def setParent (h : Heap) (p : Ptr) (v : Option Ptr) : Heap :=
  hupd h p { h p with avl_parent := v }

/-- Field store `p->avl_left = v`. -/
def setLeft (h : Heap) (p : Ptr) (v : Option Ptr) : Heap :=
  hupd h p { h p with avl_left := v }

/-- Field store `p->avl_right = v`. -/
def setRight (h : Heap) (p : Ptr) (v : Option Ptr) : Heap :=
  hupd h p { h p with avl_right := v }

/-- Field store `p->avl_height = v`. -/
def setHeight (h : Heap) (p : Ptr) (v : Int) : Heap :=
  hupd h p { h p with avl_height := v }

/-- Program state: the heap plus the `avl_root` (`root->avl_node`). -/
structure S where
  heap : Heap
  root : Option Ptr

/-- avl_init_node: clear the links and set height 1. -/
def avl_init_node (h : Heap) (p : Ptr) : Heap :=
  hupd h p { avl_parent := none, avl_left := none, avl_right := none, avl_height := 1 }

/-- avl_height: 0 for NULL, else the stored height. -/
def avl_height (h : Heap) : Option Ptr → Int
  | none => 0
  | some p => (h p).avl_height

/-- avl_update_height: `n->avl_height = max(h(left), h(right)) + 1`. -/
def avl_update_height (h : Heap) (p : Ptr) : Heap :=
  setHeight h p (max (avl_height h (h p).avl_left) (avl_height h (h p).avl_right) + 1)

/-- avl_rotate_right, translated statement by statement.  The C code
dereferences `y->avl_left` unconditionally; the NULL case (undefined
behaviour in C) is modelled as a no-op and excluded by the theorems. -/
def avl_rotate_right (s : S) (y : Ptr) : S :=
  match (s.heap y).avl_left with
  | none => s
  | some x =>
    let h0 := s.heap
    let h1 := setLeft h0 y ((h0 x).avl_right)
    let h2 := match (h1 x).avl_right with
      | none => h1
      | some xr => setParent h1 xr (some y)
    let h3 := setParent h2 x ((h2 y).avl_parent)
    let hr4 : Heap × Option Ptr := match (h3 y).avl_parent with
      | none => (h3, some x)
      | some gp =>
        if (h3 gp).avl_left = some y then (setLeft h3 gp (some x), s.root)
        else (setRight h3 gp (some x), s.root)
    let h5 := setRight hr4.1 x (some y)
    let h6 := setParent h5 y (some x)
    let h7 := avl_update_height h6 y
    let h8 := avl_update_height h7 x
    { heap := h8, root := hr4.2 }

/-- avl_rotate_left, the mirror image of avl_rotate_right. -/
def avl_rotate_left (s : S) (x : Ptr) : S :=
  match (s.heap x).avl_right with
  | none => s
  | some y =>
    let h0 := s.heap
    let h1 := setRight h0 x ((h0 y).avl_left)
    let h2 := match (h1 y).avl_left with
      | none => h1
      | some yl => setParent h1 yl (some x)
    let h3 := setParent h2 y ((h2 x).avl_parent)
    let hr4 : Heap × Option Ptr := match (h3 x).avl_parent with
      | none => (h3, some y)
      | some gp =>
        if (h3 gp).avl_left = some x then (setLeft h3 gp (some y), s.root)
        else (setRight h3 gp (some y), s.root)
    let h5 := setLeft hr4.1 y (some x)
    let h6 := setParent h5 x (some y)
    let h7 := avl_update_height h6 x
    let h8 := avl_update_height h7 y
    { heap := h8, root := hr4.2 }

/-- One iteration of the `while (n)` loop body of avl_rebalance at node
`p`: recompute the height, compute the balance, and rotate as the code
does.  The walk continues at `p`'s (possibly new) parent afterwards. -/
def avl_rebalance_body (s : S) (p : Ptr) : S :=
  let s1 : S := { s with heap := avl_update_height s.heap p }
  let balance := avl_height s1.heap (s1.heap p).avl_left -
                 avl_height s1.heap (s1.heap p).avl_right
  if balance > 1 then
    match (s1.heap p).avl_left with
    | none => s1
    | some l =>
      let s2 := if avl_height s1.heap (s1.heap l).avl_left <
                   avl_height s1.heap (s1.heap l).avl_right
                then avl_rotate_left s1 l else s1
      avl_rotate_right s2 p
  else if balance < -1 then
    match (s1.heap p).avl_right with
    | none => s1
    | some r =>
      let s2 := if avl_height s1.heap (s1.heap r).avl_right <
                   avl_height s1.heap (s1.heap r).avl_left
                then avl_rotate_right s1 r else s1
      avl_rotate_left s2 p
  else s1

/-- avl_rebalance: walk from `n` up to the root, fixing each node. -/
def avl_rebalance_fuel : Nat → S → Option Ptr → S
  | 0, s, _ => s
  | fuel+1, s, n =>
    match n with
    | none => s
    | some p =>
      let s2 := avl_rebalance_body s p
      avl_rebalance_fuel fuel s2 ((s2.heap p).avl_parent)

/-- avl_link_node: init the node, set its parent, and write it into the
parent's chosen slot (or the root when parent is NULL). -/
def avl_link_node (s : S) (node : Ptr) (parent : Option Ptr) (left : Bool) : S :=
  let h1 := avl_init_node s.heap node
  let h2 := setParent h1 node parent
  match parent with
  | none => { heap := h2, root := some node }
  | some par =>
    if left then { heap := setLeft h2 par (some node), root := s.root }
    else { heap := setRight h2 par (some node), root := s.root }

/-- avl_insert_color: rebalance upwards from the node's parent. -/
def avl_insert_color (fuel : Nat) (s : S) (node : Ptr) : S :=
  avl_rebalance_fuel fuel s ((s.heap node).avl_parent)

/-- avl_subtree_min: `while (n and n->avl_left) n = n->avl_left`. -/
def avl_subtree_min : Nat → Heap → Option Ptr → Option Ptr
  | 0, _, n => n
  | _+1, _, none => none
  | fuel+1, h, some p =>
    match (h p).avl_left with
    | none => some p
    | some l => avl_subtree_min fuel h (some l)

/-- avl_erase, translated statement by statement; note that `parent` is
read from the node being erased before the two-child case possibly
redirects `node` to the in-order successor. -/
def avl_erase (fuel : Nat) (s : S) (p : Ptr) : S :=
  let h := s.heap
  let parent := (h p).avl_parent
  let node : Ptr :=
    match (h p).avl_left, (h p).avl_right with
    | some _, some r =>
      match avl_subtree_min fuel h (some r) with
      | some succ => succ
      | none => p
    | _, _ => p
  let child : Option Ptr :=
    match (h node).avl_left with
    | some l => some l
    | none => (h node).avl_right
  let h1 := match child with
    | none => h
    | some c => setParent h c parent
  let s2 : S := match parent with
    | none => { heap := h1, root := child }
    | some par =>
      if (h1 par).avl_left = some node then { heap := setLeft h1 par child, root := s.root }
      else { heap := setRight h1 par child, root := s.root }
  avl_rebalance_fuel fuel s2 parent

/-- avl_first: minimum of the whole tree. -/
def avl_first (fuel : Nat) (s : S) : Option Ptr :=
  avl_subtree_min fuel s.heap s.root

/-- The ascend loop of avl_next:
`while (n->avl_parent and n == n->avl_parent->avl_right) n = n->avl_parent;
return n->avl_parent`. -/
def avl_next_ascend : Nat → Heap → Ptr → Option Ptr
  | 0, h, n => (h n).avl_parent
  | fuel+1, h, n =>
    match (h n).avl_parent with
    | none => none
    | some par =>
      if (h par).avl_right = some n then avl_next_ascend fuel h par
      else some par

/-- avl_next: leftmost node of the right subtree when present, else the
first ancestor reached from the left. -/
def avl_next (fuel : Nat) (h : Heap) (p : Ptr) : Option Ptr :=
  match (h p).avl_right with
  | some r => avl_subtree_min fuel h (some r)
  | none => avl_next_ascend fuel h p

/-- The BST descent of avl_insert_key in avl_test.c: find the (parent,
is-left) slot for key `k` under the caller-supplied key map. -/
def avl_find_pos (keys : Ptr → Int) (k : Int) :
    Nat → Heap → Option Ptr → Bool → Option Ptr → Option Ptr × Bool
  | 0, _, parent, isLeft, _ => (parent, isLeft)
  | _+1, _, parent, isLeft, none => (parent, isLeft)
  | fuel+1, h, _, _, some p =>
    if k < keys p then avl_find_pos keys k fuel h (some p) true (h p).avl_left
    else avl_find_pos keys k fuel h (some p) false (h p).avl_right

/-- avl_insert_key from avl_test.c: BST descent, avl_link_node, then
avl_insert_color. -/
def avl_insert_key (fuel : Nat) (s : S) (keys : Ptr → Int) (p : Ptr) : S :=
  let pos := avl_find_pos keys (keys p) fuel s.heap none true s.root
  let s1 := avl_link_node s p pos.1 pos.2
  avl_insert_color fuel s1 p

/-- Insert a list of nodes in order, as the test driver's main loop does. -/
def avl_insert_list (fuel : Nat) (keys : Ptr → Int) : S → List Ptr → S
  | s, [] => s
  | s, p :: ps => avl_insert_list fuel keys (avl_insert_key fuel s keys p) ps

/-- In-order iteration by avl_first / repeated avl_next, collecting keys
(the print_inorder loop of avl_test.c). -/
def inorder_iter (keys : Ptr → Int) : Nat → Heap → Option Ptr → List Int
  | 0, _, _ => []
  | _+1, _, none => []
  | fuel+1, h, some p => keys p :: inorder_iter keys fuel h (avl_next fuel h p)

/-- Run the full traversal from avl_first. -/
def avl_inorder (fuel : Nat) (keys : Ptr → Int) (s : S) : List Int :=
  inorder_iter keys fuel s.heap (avl_first fuel s)

/-! ### Mathematical view: extracted trees and the AVL invariant -/

/-- Binary trees of pointers, the mathematical shape of a heap tree. -/
inductive T where
  | leaf : T
  | node : T → Ptr → T → T
deriving Repr, DecidableEq

/-- In-order list of the pointers of a tree. -/
def T.inorder : T → List Ptr
  | .leaf => []
  | .node l p r => l.inorder ++ p :: r.inorder

/-- Recomputed height of a tree shape (absent child = 0, leaf node = 1). -/
def T.rheight : T → Int
  | .leaf => 0
  | .node l _ r => max l.rheight r.rheight + 1

/-- Root pointer of a tree shape. -/
def T.rootPtr : T → Option Ptr
  | .leaf => none
  | .node _ p _ => some p

/-- Extract the tree shape reachable from a pointer, with fuel. -/
def toTree : Nat → Heap → Option Ptr → T
  | 0, _, _ => .leaf
  | _+1, _, none => .leaf
  | fuel+1, h, some p =>
    .node (toTree fuel h (h p).avl_left) p (toTree fuel h (h p).avl_right)

/-- Boolean AVL invariant check on an extracted tree: at every node the
recomputed child heights differ by at most 1 and the stored height is
1 + max of the recomputed child heights. -/
def avlInvB (h : Heap) : T → Bool
  | .leaf => true
  | .node l p r =>
    avlInvB h l && avlInvB h r &&
    decide ((l.rheight - r.rheight).natAbs ≤ 1) &&
    ((h p).avl_height == max l.rheight r.rheight + 1)

/-- Does pointer `p` occur in the tree reachable from `o`? -/
def occursB : Nat → Heap → Option Ptr → Ptr → Bool
  | 0, _, _, _ => false
  | _+1, _, none, _ => false
  | fuel+1, h, some q, p =>
    q == p || occursB fuel h (h q).avl_left p || occursB fuel h (h q).avl_right p

/-- The heap represents tree shape `t` at pointer `c` whose parent field
points to `par`: left/right/parent fields all agree with the shape. -/
inductive IsTree (h : Heap) : Option Ptr → Option Ptr → T → Prop
  | leaf : ∀ par, IsTree h par none T.leaf
  | node : ∀ par p tl tr,
      (h p).avl_parent = par →
      (h p).avl_left = tl.rootPtr →
      (h p).avl_right = tr.rootPtr →
      IsTree h (some p) tl.rootPtr tl →
      IsTree h (some p) tr.rootPtr tr →
      IsTree h par (some p) (T.node tl p tr)

/-! ### Spec-side definitions used for refinement comparisons -/

/-- Balance factor of a node: height(left) − height(right) (spec §3, glossary). -/
def balanceOf (h : Heap) (p : Ptr) : Int :=
  avl_height h (h p).avl_left - avl_height h (h p).avl_right

/-- The rebalance step as the spec words it (§4.3): recompute the height;
when `balance > 1` and the left child's own balance is negative, first
rotate left at the left child, then rotate right at the current node;
mirrored for `balance < -1`.  Written from the spec, to be compared with
avl_rebalance_body. -/
def avl_rebalance_body_spec (s : S) (p : Ptr) : S :=
  let s1 : S := { s with heap := avl_update_height s.heap p }
  if 1 < balanceOf s1.heap p then
    match (s1.heap p).avl_left with
    | none => s1
    | some l =>
      let s2 := if balanceOf s1.heap l < 0 then avl_rotate_left s1 l else s1
      avl_rotate_right s2 p
  else if balanceOf s1.heap p < -1 then
    match (s1.heap p).avl_right with
    | none => s1
    | some r =>
      let s2 := if 0 < balanceOf s1.heap r then avl_rotate_right s1 r else s1
      avl_rotate_left s2 p
  else s1

/-- Walk `left` from a node until reaching a node with no left child
(spec §4.6, wording for `first`).  Written from the spec. -/
def walkLeft_spec : Nat → Heap → Ptr → Option Ptr
  | 0, _, p => some p
  | fuel+1, h, p =>
    match (h p).avl_left with
    | none => some p
    | some l => walkLeft_spec fuel h l

/-- `first` as the spec words it: walk left from the root; the empty
tree yields no node.  Written from the spec. -/
def avl_first_spec (fuel : Nat) (s : S) : Option Ptr :=
  match s.root with
  | none => none
  | some r => walkLeft_spec fuel s.heap r

/-- Ascent of `next` as the spec words it: return the first ancestor
reached via a left-child step, or no successor when the root is reached
without ever being a left child.  Written from the spec. -/
def ascend_spec : Nat → Heap → Ptr → Option Ptr
  | 0, _, _ => none
  | fuel+1, h, n =>
    match (h n).avl_parent with
    | none => none
    | some par =>
      if (h par).avl_left = some n then some par
      else ascend_spec fuel h par

/-- `next` as the spec words it: leftmost descendant of the right
subtree when there is a right child, else the ascent.  Written from the
spec. -/
def avl_next_spec (fuel : Nat) (h : Heap) (p : Ptr) : Option Ptr :=
  match (h p).avl_right with
  | some r => walkLeft_spec fuel h r
  | none => ascend_spec fuel h p

/-- Does the parent chain starting at `o` reach NULL within `fuel` steps? -/
def chainB : Nat → Heap → Option Ptr → Bool
  | 0, _, o => o.isNone
  | fuel+1, h, o =>
    match o with
    | none => true
    | some q => chainB fuel h (h q).avl_parent

/-! ### Instrumented (state-passing) traversal, for the frame claim -/

/-- avl_subtree_min with the program state threaded through, statement
by statement; the loop only reads, so the state is passed unchanged. -/
def avl_subtree_min_run : Nat → S → Option Ptr → S × Option Ptr
  | 0, s, n => (s, n)
  | _+1, s, none => (s, none)
  | fuel+1, s, some p =>
    match (s.heap p).avl_left with
    | none => (s, some p)
    | some l => avl_subtree_min_run fuel s (some l)

/-- avl_first with the state threaded through. -/
def avl_first_run (fuel : Nat) (s : S) : S × Option Ptr :=
  avl_subtree_min_run fuel s s.root

/-- The ascend loop of avl_next with the state threaded through. -/
def avl_next_ascend_run : Nat → S → Ptr → S × Option Ptr
  | 0, s, n => (s, (s.heap n).avl_parent)
  | fuel+1, s, n =>
    match (s.heap n).avl_parent with
    | none => (s, none)
    | some par =>
      if (s.heap par).avl_right = some n then avl_next_ascend_run fuel s par
      else (s, some par)

/-- avl_next with the state threaded through. -/
def avl_next_run (fuel : Nat) (s : S) (p : Ptr) : S × Option Ptr :=
  match (s.heap p).avl_right with
  | some r => avl_subtree_min_run fuel s (some r)
  | none => avl_next_ascend_run fuel s p

/-! ### Concrete scenarios from avl_test.c and the spec (§8) -/

/-- A heap of fresh unlinked nodes. -/
def h0 : Heap := fun _ => ⟨none, none, none, 0⟩

/-- The empty tree over the fresh heap. -/
def s0 : S := ⟨h0, none⟩

/-- Scenario A key map: keys 50,20,70,10,30,60,80,25,35 at pointers 0..8. -/
def keysA : Ptr → Int := fun p => [50, 20, 70, 10, 30, 60, 80, 25, 35].getD p 0

/-- Scenario A state: the nine keys inserted in order. -/
def sA : S := avl_insert_list 20 keysA s0 [0, 1, 2, 3, 4, 5, 6, 7, 8]

/-- Scenario C key map: keys 1..5 at pointers 0..4. -/
def keysC : Ptr → Int := fun p => [1, 2, 3, 4, 5].getD p 0

/-- Scenario C state: 1,2,3,4,5 inserted in increasing order. -/
def sC : S := avl_insert_list 20 keysC s0 [0, 1, 2, 3, 4]

/-- Key map for the invariant-breaking erase: keys 8,4,10,2,6,9,11,1,5,7
at pointers 0..9. -/
def keysE : Ptr → Int := fun p => [8, 4, 10, 2, 6, 9, 11, 1, 5, 7].getD p 0

/-- State after inserting the ten keys above (a valid AVL tree). -/
def sEpre : S := avl_insert_list 20 keysE s0 [0, 1, 2, 3, 4, 5, 6, 7, 8, 9]

/-- State after erasing pointer 1 (key 4, a node with two children). -/
def sEpost : S := avl_erase 20 sEpre 1

/-- Key map for the three-node two-child erase: keys 2,1,3 at pointers
0,1,2. -/
def keysD : Ptr → Int := fun p => [2, 1, 3].getD p 0

/-- Three-node tree: root 2 with children 1 and 3. -/
def sDpre : S := avl_insert_list 20 keysD s0 [0, 1, 2]

/-- State after erasing the root (pointer 0), which has two children. -/
def sDpost : S := avl_erase 20 sDpre 0

/-- Nothing in the heap or the Root references pointer `p`: no left,
right or parent field anywhere holds `some p` and the Root is not
`some p`.  Such a pointer is unreachable and stays so. -/
def noref (h : Heap) (r : Option Ptr) (p : Ptr) : Prop :=
  r ≠ some p ∧ ∀ q, (h q).avl_left ≠ some p ∧ (h q).avl_right ≠ some p ∧
    (h q).avl_parent ≠ some p


/-- A tiny two-node heap used to instantiate the rotation theorems:
node 0 is the root with left child 1. -/
def wheapR : Heap := fun p =>
  if p = 0 then ⟨none, some 1, none, 2⟩
  else if p = 1 then ⟨some 0, none, none, 1⟩
  else ⟨none, none, none, 0⟩

/-- State whose tree is node 0 with left child 1. -/
def wsR : S := ⟨wheapR, some 0⟩

/-- A tiny two-node heap: node 0 is the root with right child 1. -/
def wheapL : Heap := fun p =>
  if p = 0 then ⟨none, none, some 1, 2⟩
  else if p = 1 then ⟨some 0, none, none, 1⟩
  else ⟨none, none, none, 0⟩

/-- State whose tree is node 0 with right child 1. -/
def wsL : S := ⟨wheapL, some 0⟩


/-- Height correctness of the stored heights over an extracted tree:
every node stores 1 + max of the recomputed child heights. -/
def heightOKb (h : Heap) : T → Bool
  | .leaf => true
  | .node l p r =>
    heightOKb h l && heightOKb h r && ((h p).avl_height == max l.rheight r.rheight + 1)

/-- A left-left-heavy three-node heap used to instantiate the rebalance
safety theorem: node 0 with left child 1, which has left child 2. -/
def wheap9 : Heap := fun p =>
  if p = 0 then ⟨none, some 1, none, 3⟩
  else if p = 1 then ⟨some 0, some 2, none, 2⟩
  else if p = 2 then ⟨some 1, none, none, 1⟩
  else ⟨none, none, none, 0⟩


/-- Heap part of noref: no left, right or parent field anywhere in the
heap holds `some p`. -/
def norefH (h : Heap) (p : Ptr) : Prop :=
  ∀ q, (h q).avl_left ≠ some p ∧ (h q).avl_right ≠ some p ∧ (h q).avl_parent ≠ some p


/-! ### Theorems -/

/-- Claim C6: inserting 50,20,70,10,30,60,80,25,35 in that order into an
empty tree and traversing with avl_first / repeated avl_next yields
exactly 10,20,25,30,35,50,60,70,80. -/
theorem C6_scenarioA_inorder :
    avl_inorder 20 keysA sA = [10, 20, 25, 30, 35, 50, 60, 70, 80] := rfl

/-- Claim C7: inserting 1,2,3,4,5 in increasing order yields a tree whose
root (pointer 1, key 2) has stored height 3 ≤ 3, not 5: the rebalance
walker performed rotations. -/
theorem C7_scenarioC_height :
    sC.root = some 1 ∧ (sC.heap 1).avl_height = 3 ∧ (sC.heap 1).avl_height ≤ 3 :=
  ⟨rfl, rfl, by decide⟩

/-- Claim C1 is refuted by the code: after inserting keys 8,4,10,2,6,9,11,
1,5,7 (pointers 0..9) the AVL/height invariant holds, but a single
avl_erase of pointer 1 (key 4, a node with two children) leaves a tree
violating it: the stale `parent` variable makes the splice clobber the
wrong slot, and the subsequent rebalance cannot restore balance. -/
theorem C1_invariant_broken_by_erase :
    avlInvB sEpre.heap (toTree 20 sEpre.heap sEpre.root) = true ∧
    avlInvB sEpost.heap (toTree 20 sEpost.heap sEpost.root) = false :=
  ⟨rfl, rfl⟩

/-- Claim C2 is refuted by the code: in the tree 2(1,3) (root pointer 0
with children 1 and 3), erasing the root — a two-child node — does not
splice the successor (pointer 2, key 3) out of its location: the code
instead rewrites the Root, using the erased node's own parent, to the
successor's child (NULL), emptying the tree while the successor stays
linked under the erased node. -/
theorem C2_two_child_erase_wrong_splice :
    (sDpre.heap 0).avl_left = some 1 ∧ (sDpre.heap 0).avl_right = some 2 ∧
    sDpre.root = some 0 ∧
    sDpost.root = none ∧ (sDpost.heap 0).avl_right = some 2 :=
  ⟨rfl, rfl, rfl, rfl, rfl⟩

/-- One unfolding of the rebalance walk: the loop stops only at NULL. -/
theorem avl_rebalance_fuel_none (fuel : Nat) (s : S) :
    avl_rebalance_fuel (fuel+1) s none = s := rfl

/-- One unfolding of the rebalance walk at a node. -/
theorem avl_rebalance_fuel_some (fuel : Nat) (s : S) (p : Ptr) :
    avl_rebalance_fuel (fuel+1) s (some p) =
      avl_rebalance_fuel fuel (avl_rebalance_body s p)
        (((avl_rebalance_body s p).heap p).avl_parent) := rfl

/-- Claim C3: the rebalance walker processes the given node and then
always continues with the node's possibly new post-rotation parent,
terminating only when the parent chain reaches NULL (i.e. past the
root), and each step is exactly the spec-described step: recompute the
height, and when balance > 1 rotate left at the left child exactly when
that child's own balance is negative, then rotate right at the node
(mirrored for balance < -1). -/
theorem C3_rebalance_walk :
    (∀ (fuel : Nat) (s : S), avl_rebalance_fuel (fuel+1) s none = s) ∧
    (∀ (fuel : Nat) (s : S) (p : Ptr),
      avl_rebalance_fuel (fuel+1) s (some p) =
        avl_rebalance_fuel fuel (avl_rebalance_body s p)
          (((avl_rebalance_body s p).heap p).avl_parent)) ∧
    (∀ (s : S) (p : Ptr), avl_rebalance_body s p = avl_rebalance_body_spec s p) := by
  refine ⟨fun fuel s => rfl, fun fuel s p => rfl, fun s p => ?_⟩
  simp only [avl_rebalance_body, avl_rebalance_body_spec, balanceOf]
  have key : ∀ a b : Int, (a < b) ↔ (a - b < 0) := by intro a b; omega
  have key2 : ∀ a b : Int, (b < a) ↔ (0 < a - b) := by intro a b; omega
  by_cases hA : avl_height (avl_update_height s.heap p) ((avl_update_height s.heap p) p).avl_left -
      avl_height (avl_update_height s.heap p) ((avl_update_height s.heap p) p).avl_right > 1
  · rw [if_pos hA, if_pos hA]
    cases hL : ((avl_update_height s.heap p) p).avl_left with
    | none => rfl
    | some l =>
      dsimp only
      rw [if_congr (key _ _) rfl rfl]
  · rw [if_neg hA, if_neg hA]
    by_cases hB : avl_height (avl_update_height s.heap p) ((avl_update_height s.heap p) p).avl_left -
        avl_height (avl_update_height s.heap p) ((avl_update_height s.heap p) p).avl_right < -1
    · rw [if_pos hB, if_pos hB]
      cases hR : ((avl_update_height s.heap p) p).avl_right with
      | none => rfl
      | some r =>
        dsimp only
        rw [if_congr (key2 _ _) rfl rfl]
    · rw [if_neg hB, if_neg hB]

/-- The state-passing avl_subtree_min returns the state unchanged and
computes the same pointer as the direct version. -/
theorem avl_subtree_min_run_eq :
    ∀ (fuel : Nat) (s : S) (n : Option Ptr),
      avl_subtree_min_run fuel s n = (s, avl_subtree_min fuel s.heap n) := by
  intro fuel
  induction fuel with
  | zero => intro s n; rfl
  | succ f ih =>
    intro s n
    cases n with
    | none => rfl
    | some p =>
      simp only [avl_subtree_min_run, avl_subtree_min]
      cases hL : (s.heap p).avl_left with
      | none => rfl
      | some l => exact ih s (some l)

/-- The state-passing ascend loop returns the state unchanged and
computes the same pointer as the direct version. -/
theorem avl_next_ascend_run_eq :
    ∀ (fuel : Nat) (s : S) (n : Ptr),
      avl_next_ascend_run fuel s n = (s, avl_next_ascend fuel s.heap n) := by
  intro fuel
  induction fuel with
  | zero => intro s n; rfl
  | succ f ih =>
    intro s n
    simp only [avl_next_ascend_run, avl_next_ascend]
    cases hP : (s.heap n).avl_parent with
    | none => rfl
    | some par =>
      dsimp only
      by_cases hR : (s.heap par).avl_right = some n
      · rw [if_pos hR, if_pos hR]; exact ih s par
      · rw [if_neg hR, if_neg hR]

/-- Claim C10: avl_first and avl_next never modify the tree: the
state-passing translations return the heap and Root unchanged (so every
node's parent, left, right and height fields are untouched) while
computing the same results as the read-only versions. -/
theorem C10_traversal_readonly :
    ∀ (fuel : Nat) (s : S) (p : Ptr),
      avl_first_run fuel s = (s, avl_first fuel s) ∧
      avl_next_run fuel s p = (s, avl_next fuel s.heap p) := by
  intro fuel s p
  constructor
  · exact avl_subtree_min_run_eq fuel s s.root
  · simp only [avl_next_run, avl_next]
    cases hR : (s.heap p).avl_right with
    | none => exact avl_next_ascend_run_eq fuel s p
    | some r => exact avl_subtree_min_run_eq fuel s (some r)

/-! ### Heap read/write lemmas -/

theorem hupd_get_same (h : Heap) (p : Ptr) (v : AvlNode) : hupd h p v p = v := by
  simp [hupd]

theorem hupd_get_other (h : Heap) (p : Ptr) (v : AvlNode) (q : Ptr) (hq : q ≠ p) :
    hupd h p v q = h q := by
  simp [hupd, hq]

theorem setLeft_parent (h : Heap) (p : Ptr) (v : Option Ptr) (q : Ptr) :
    (setLeft h p v q).avl_parent = (h q).avl_parent := by
  by_cases hq : q = p <;> simp [setLeft, hupd, hq]

theorem setLeft_right (h : Heap) (p : Ptr) (v : Option Ptr) (q : Ptr) :
    (setLeft h p v q).avl_right = (h q).avl_right := by
  by_cases hq : q = p <;> simp [setLeft, hupd, hq]

theorem setLeft_height (h : Heap) (p : Ptr) (v : Option Ptr) (q : Ptr) :
    (setLeft h p v q).avl_height = (h q).avl_height := by
  by_cases hq : q = p <;> simp [setLeft, hupd, hq]

theorem setLeft_left (h : Heap) (p : Ptr) (v : Option Ptr) (q : Ptr) :
    (setLeft h p v q).avl_left = if q = p then v else (h q).avl_left := by
  by_cases hq : q = p <;> simp [setLeft, hupd, hq]

theorem setRight_parent (h : Heap) (p : Ptr) (v : Option Ptr) (q : Ptr) :
    (setRight h p v q).avl_parent = (h q).avl_parent := by
  by_cases hq : q = p <;> simp [setRight, hupd, hq]

theorem setRight_left (h : Heap) (p : Ptr) (v : Option Ptr) (q : Ptr) :
    (setRight h p v q).avl_left = (h q).avl_left := by
  by_cases hq : q = p <;> simp [setRight, hupd, hq]

theorem setRight_height (h : Heap) (p : Ptr) (v : Option Ptr) (q : Ptr) :
    (setRight h p v q).avl_height = (h q).avl_height := by
  by_cases hq : q = p <;> simp [setRight, hupd, hq]

theorem setRight_right (h : Heap) (p : Ptr) (v : Option Ptr) (q : Ptr) :
    (setRight h p v q).avl_right = if q = p then v else (h q).avl_right := by
  by_cases hq : q = p <;> simp [setRight, hupd, hq]

theorem setParent_left (h : Heap) (p : Ptr) (v : Option Ptr) (q : Ptr) :
    (setParent h p v q).avl_left = (h q).avl_left := by
  by_cases hq : q = p <;> simp [setParent, hupd, hq]

theorem setParent_right (h : Heap) (p : Ptr) (v : Option Ptr) (q : Ptr) :
    (setParent h p v q).avl_right = (h q).avl_right := by
  by_cases hq : q = p <;> simp [setParent, hupd, hq]

theorem setParent_height (h : Heap) (p : Ptr) (v : Option Ptr) (q : Ptr) :
    (setParent h p v q).avl_height = (h q).avl_height := by
  by_cases hq : q = p <;> simp [setParent, hupd, hq]

theorem setParent_parent (h : Heap) (p : Ptr) (v : Option Ptr) (q : Ptr) :
    (setParent h p v q).avl_parent = if q = p then v else (h q).avl_parent := by
  by_cases hq : q = p <;> simp [setParent, hupd, hq]

theorem setHeight_parent (h : Heap) (p : Ptr) (v : Int) (q : Ptr) :
    (setHeight h p v q).avl_parent = (h q).avl_parent := by
  by_cases hq : q = p <;> simp [setHeight, hupd, hq]

theorem setHeight_left (h : Heap) (p : Ptr) (v : Int) (q : Ptr) :
    (setHeight h p v q).avl_left = (h q).avl_left := by
  by_cases hq : q = p <;> simp [setHeight, hupd, hq]

theorem setHeight_right (h : Heap) (p : Ptr) (v : Int) (q : Ptr) :
    (setHeight h p v q).avl_right = (h q).avl_right := by
  by_cases hq : q = p <;> simp [setHeight, hupd, hq]

theorem setHeight_height (h : Heap) (p : Ptr) (v : Int) (q : Ptr) :
    (setHeight h p v q).avl_height = if q = p then v else (h q).avl_height := by
  by_cases hq : q = p <;> simp [setHeight, hupd, hq]

theorem updh_parent (h : Heap) (p : Ptr) (q : Ptr) :
    (avl_update_height h p q).avl_parent = (h q).avl_parent := by
  simp [avl_update_height, setHeight_parent]

theorem updh_left (h : Heap) (p : Ptr) (q : Ptr) :
    (avl_update_height h p q).avl_left = (h q).avl_left := by
  simp [avl_update_height, setHeight_left]

theorem updh_right (h : Heap) (p : Ptr) (q : Ptr) :
    (avl_update_height h p q).avl_right = (h q).avl_right := by
  simp [avl_update_height, setHeight_right]

theorem updh_height (h : Heap) (p : Ptr) (q : Ptr) :
    (avl_update_height h p q).avl_height =
      if q = p then max (avl_height h (h p).avl_left) (avl_height h (h p).avl_right) + 1
      else (h q).avl_height := by
  simp [avl_update_height, setHeight_height]

/-! ### IsTree facts -/

theorem IsTree_c_eq {h : Heap} {par c : Option Ptr} {t : T}
    (H : IsTree h par c t) : c = t.rootPtr := by
  cases H with
  | leaf _ => rfl
  | node => rfl

theorem IsTree_parent_eq {h : Heap} {par : Option Ptr} {p : Ptr} {t : T}
    (H : IsTree h par (some p) t) : (h p).avl_parent = par := by
  cases H with
  | node _ _ _ _ hp _ _ _ _ => exact hp

theorem T_rootPtr_none {t : T} (ht : t.rootPtr = none) : t = T.leaf := by
  cases t with
  | leaf => rfl
  | node l p r => simp [T.rootPtr] at ht

theorem mem_inorder_node {q : Ptr} {l : T} {p : Ptr} {r : T} :
    q ∈ (T.node l p r).inorder ↔ q ∈ l.inorder ∨ q = p ∨ q ∈ r.inorder := by
  simp [T.inorder]

theorem rootPtr_mem {t : T} {p : Ptr} (ht : t.rootPtr = some p) : p ∈ t.inorder := by
  cases t with
  | leaf => simp [T.rootPtr] at ht
  | node l q r =>
    simp [T.rootPtr] at ht
    subst ht
    exact mem_inorder_node.mpr (Or.inr (Or.inl rfl))

theorem nodup_node {l : T} {p : Ptr} {r : T} :
    (T.node l p r).inorder.Nodup ↔
      l.inorder.Nodup ∧ r.inorder.Nodup ∧ p ∉ l.inorder ∧ p ∉ r.inorder ∧
        ∀ a ∈ l.inorder, a ∉ r.inorder := by
  simp only [T.inorder, List.nodup_append, List.nodup_cons, List.disjoint_cons_right]
  constructor
  · rintro ⟨hl, ⟨hpr, hr⟩, hpl, hd⟩
    exact ⟨hl, hr, hpl, hpr, fun a ha => hd ha⟩
  · rintro ⟨hl, hr, hpl, hpr, hd⟩
    exact ⟨hl, ⟨hpr, hr⟩, hpl, fun a ha hb => hd a ha hb⟩

/-- Transport an IsTree derivation to a heap that agrees on the left and
right fields of all tree nodes, on the parent fields of all non-root
tree nodes, and gives the root node parent `par2`. -/
theorem IsTree_congr {h h2 : Heap} {par : Option Ptr} (t : T)
    (H : IsTree h par t.rootPtr t)
    (Hnd : t.inorder.Nodup)
    (par2 : Option Ptr)
    (hlr : ∀ q ∈ t.inorder, (h2 q).avl_left = (h q).avl_left ∧
      (h2 q).avl_right = (h q).avl_right)
    (hpint : ∀ q ∈ t.inorder, t.rootPtr ≠ some q → (h2 q).avl_parent = (h q).avl_parent)
    (hproot : ∀ rp, t.rootPtr = some rp → (h2 rp).avl_parent = par2) :
    IsTree h2 par2 t.rootPtr t := by
  induction t generalizing par par2 with
  | leaf => exact IsTree.leaf par2
  | node l p r ihl ihr =>
    cases H with
    | node _ _ _ _ hp hl hr Hl Hr =>
      obtain ⟨hndl, hndr, hpl, hpr, hdisj⟩ := nodup_node.mp Hnd
      have hmeml : ∀ q ∈ l.inorder, q ∈ (T.node l p r).inorder := fun q hq =>
        mem_inorder_node.mpr (Or.inl hq)
      have hmemr : ∀ q ∈ r.inorder, q ∈ (T.node l p r).inorder := fun q hq =>
        mem_inorder_node.mpr (Or.inr (Or.inr hq))
      have hpmem : p ∈ (T.node l p r).inorder := mem_inorder_node.mpr (Or.inr (Or.inl rfl))
      refine IsTree.node _ _ _ _ ?_ ?_ ?_ ?_ ?_
      · exact hproot p rfl
      · exact (hlr p hpmem).1.trans hl
      · exact (hlr p hpmem).2.trans hr
      · refine ihl Hl hndl (some p) (fun q hq => hlr q (hmeml q hq)) ?_ ?_
        · intro q hq _
          exact hpint q (hmeml q hq) (by simp [T.rootPtr]; rintro rfl; exact hpl hq)
        · intro rp hrp
          have hmem := rootPtr_mem hrp
          have := hpint rp (hmeml rp hmem) (by simp [T.rootPtr]; rintro rfl; exact hpl hmem)
          rw [this]
          exact IsTree_parent_eq (hrp ▸ Hl)
      · refine ihr Hr hndr (some p) (fun q hq => hlr q (hmemr q hq)) ?_ ?_
        · intro q hq _
          exact hpint q (hmemr q hq) (by simp [T.rootPtr]; rintro rfl; exact hpr hq)
        · intro rp hrp
          have hmem := rootPtr_mem hrp
          have := hpint rp (hmemr rp hmem) (by simp [T.rootPtr]; rintro rfl; exact hpr hmem)
          rw [this]
          exact IsTree_parent_eq (hrp ▸ Hr)

attribute [simp] setLeft_parent setLeft_right setLeft_height setLeft_left
attribute [simp] setRight_parent setRight_left setRight_height setRight_right
attribute [simp] setParent_left setParent_right setParent_height setParent_parent
attribute [simp] setHeight_parent setHeight_left setHeight_right setHeight_height
attribute [simp] updh_parent updh_left updh_right updh_height

theorem avl_height_none (h : Heap) : avl_height h none = 0 := rfl

theorem avl_height_some (h : Heap) (p : Ptr) : avl_height h (some p) = (h p).avl_height := rfl

theorem avl_height_congr {h h2 : Heap} {o : Option Ptr}
    (hag : ∀ p, o = some p → (h2 p).avl_height = (h p).avl_height) :
    avl_height h2 o = avl_height h o := by
  cases o with
  | none => rfl
  | some p => simp [avl_height_some, hag p rfl]

/-- Full specification of avl_rotate_right at a node `y` with left child
`x`: the represented subtree node(node ta x tb) y tc becomes
node ta x (node tb y tc) with correct back-pointers; the in-order
sequence is unchanged; only the heights of `x` and `y` change, `y`'s
recomputed first and `x`'s from `y`'s new value; and the grandparent
slot (or the Root) is rewritten to the promoted child `x`. -/
theorem rotate_right_spec (s : S) (gp : Option Ptr) (x y : Ptr) (ta tb tc : T)
    (H : IsTree s.heap gp (some y) (T.node (T.node ta x tb) y tc))
    (Hnd : (T.node (T.node ta x tb) y tc).inorder.Nodup)
    (Hgp : (gp = none ∧ s.root = some y) ∨
           (∃ g, gp = some g ∧ g ∉ (T.node (T.node ta x tb) y tc).inorder ∧
             ((s.heap g).avl_left = some y ∨
              ((s.heap g).avl_left ≠ some y ∧ (s.heap g).avl_right = some y)))) :
    IsTree (avl_rotate_right s y).heap gp (some x) (T.node ta x (T.node tb y tc)) ∧
    (T.node ta x (T.node tb y tc)).inorder = (T.node (T.node ta x tb) y tc).inorder ∧
    (∀ q, q ≠ x → q ≠ y →
      ((avl_rotate_right s y).heap q).avl_height = (s.heap q).avl_height) ∧
    ((avl_rotate_right s y).heap y).avl_height =
      max (avl_height s.heap tb.rootPtr) (avl_height s.heap tc.rootPtr) + 1 ∧
    ((avl_rotate_right s y).heap x).avl_height =
      max (avl_height s.heap ta.rootPtr) ((avl_rotate_right s y).heap y).avl_height + 1 ∧
    (gp = none → (avl_rotate_right s y).root = some x) ∧
    (∀ g, gp = some g → (avl_rotate_right s y).root = s.root ∧
      ((s.heap g).avl_left = some y →
        ((avl_rotate_right s y).heap g).avl_left = some x ∧
        ((avl_rotate_right s y).heap g).avl_right = (s.heap g).avl_right) ∧
      ((s.heap g).avl_left ≠ some y →
        ((avl_rotate_right s y).heap g).avl_right = some x ∧
        ((avl_rotate_right s y).heap g).avl_left = (s.heap g).avl_left)) := by
  cases H with
  | node _ _ _ _ hyp hyl hyr Hl Hc =>
  cases Hl with
  | node _ _ _ _ hxp hxl hxr Ha Hb =>
  simp only [T.rootPtr] at hyl
  obtain ⟨hndL, hndc, hynL, hync, hdLc⟩ := nodup_node.mp Hnd
  obtain ⟨hnda, hndb, hxna, hxnb, hdab⟩ := nodup_node.mp hndL
  have hxmemL : x ∈ (T.node ta x tb).inorder := mem_inorder_node.mpr (Or.inr (Or.inl rfl))
  have hxy : x ≠ y := fun e => hynL (e ▸ hxmemL)
  have hyx : y ≠ x := fun e => hxy e.symm
  have hmem3 : ∀ q, (q ∈ ta.inorder ∨ q ∈ tb.inorder ∨ q ∈ tc.inorder) →
      q ∈ (T.node (T.node ta x tb) y tc).inorder := by
    intro q hq
    rcases hq with hq | hq | hq
    · exact mem_inorder_node.mpr (Or.inl (mem_inorder_node.mpr (Or.inl hq)))
    · exact mem_inorder_node.mpr (Or.inl (mem_inorder_node.mpr (Or.inr (Or.inr hq))))
    · exact mem_inorder_node.mpr (Or.inr (Or.inr hq))
  have hq_ne_x : ∀ q, (q ∈ ta.inorder ∨ q ∈ tb.inorder ∨ q ∈ tc.inorder) → q ≠ x := by
    intro q hq e
    subst e
    rcases hq with hq | hq | hq
    · exact hxna hq
    · exact hxnb hq
    · exact hdLc q hxmemL hq
  have hq_ne_y : ∀ q, (q ∈ ta.inorder ∨ q ∈ tb.inorder ∨ q ∈ tc.inorder) → q ≠ y := by
    intro q hq e
    subst e
    rcases hq with hq | hq | hq
    · exact hynL (mem_inorder_node.mpr (Or.inl hq))
    · exact hynL (mem_inorder_node.mpr (Or.inr (Or.inr hq)))
    · exact hync hq
  have h_tb_ne : ∀ q, q ∉ tb.inorder → tb.rootPtr ≠ some q := fun q hq e => hq (rootPtr_mem e)
  obtain ⟨w, r4, hEQ, f1, f2, f3, f4, f5, f6, f7, f8, f9⟩ :
      ∃ w r4, avl_rotate_right s y =
        { heap := avl_update_height (avl_update_height
            (setParent (setRight w x (some y)) y (some x)) y) x, root := r4 } ∧
        (w y).avl_left = tb.rootPtr ∧
        (w y).avl_right = tc.rootPtr ∧
        (w x).avl_left = ta.rootPtr ∧
        (w x).avl_parent = gp ∧
        (∀ rp, tb.rootPtr = some rp → (w rp).avl_parent = some y) ∧
        (∀ q, (w q).avl_height = (s.heap q).avl_height) ∧
        (∀ q, (q ∈ ta.inorder ∨ q ∈ tb.inorder ∨ q ∈ tc.inorder) →
          (w q).avl_left = (s.heap q).avl_left ∧
          (w q).avl_right = (s.heap q).avl_right ∧
          (tb.rootPtr ≠ some q → (w q).avl_parent = (s.heap q).avl_parent)) ∧
        (gp = none → r4 = some x) ∧
        (∀ g, gp = some g → r4 = s.root ∧
          ((s.heap g).avl_left = some y →
            (w g).avl_left = some x ∧ (w g).avl_right = (s.heap g).avl_right) ∧
          ((s.heap g).avl_left ≠ some y →
            (w g).avl_right = some x ∧ (w g).avl_left = (s.heap g).avl_left)) := by
    rcases Hgp with ⟨hgpn, hroot⟩ | ⟨g, hgpe, hgnm, hslot⟩
    · subst hgpn
      cases htb : tb.rootPtr with
      | none =>
        refine ⟨setParent (setLeft s.heap y none) x none, some x, ?_, ?_, ?_, ?_, ?_, ?_, ?_, ?_, ?_, ?_⟩
        · simp only [avl_rotate_right, hyl, hxr, htb, setLeft_right, setLeft_parent,
            setParent_parent, if_neg hyx, hyp]
        · simp [htb, hxy]
        · simp [hyr, hxy]
        · simp [hxl, hyx, hxy]
        · simp [hyx]
        · intro rp hrp; exact Option.noConfusion hrp
        · intro q; by_cases hqx : q = x <;> simp [hqx]
        · intro q hq
          have h1 := hq_ne_x q hq
          have h2 := hq_ne_y q hq
          exact ⟨by simp [h1, h2], by simp [h1, h2], fun _ => by simp [h1, h2]⟩
        · intro; rfl
        · intro g hg; exact Option.noConfusion hg
      | some xr =>
        have hxrb : xr ∈ tb.inorder := rootPtr_mem htb
        have hyxr : y ≠ xr := fun e => hynL (mem_inorder_node.mpr (Or.inr (Or.inr (e ▸ hxrb))))
        have hxxr : x ≠ xr := fun e => hxnb (e ▸ hxrb)
        refine ⟨setParent (setParent (setLeft s.heap y (some xr)) xr (some y)) x none, some x,
          ?_, ?_, ?_, ?_, ?_, ?_, ?_, ?_, ?_, ?_⟩
        · simp only [avl_rotate_right, hyl, hxr, htb, setLeft_right, setLeft_parent,
            setParent_parent, if_neg hyx, if_neg hyxr, hyp]
        · simp [htb, hxy, hyxr]
        · simp [hyr, hxy, hyxr]
        · simp [hxl, hyx, hxy, hxxr]
        · simp [hyx, hxxr]
        · intro rp hrp
          obtain rfl : xr = rp := Option.some.inj hrp
          simp [hxxr.symm]
        · intro q; by_cases hqx : q = x <;> by_cases hqxr : q = xr <;> simp [hqx, hqxr]
        · intro q hq
          have h1 := hq_ne_x q hq
          have h2 := hq_ne_y q hq
          refine ⟨by simp [h1, h2], by simp [h1, h2], fun hne => ?_⟩
          have h3 : q ≠ xr := fun e => hne (congrArg some e.symm)
          simp [h1, h2, h3]
        · intro; rfl
        · intro g hg; exact Option.noConfusion hg
    · subst hgpe
      have hgx : g ≠ x := fun e => hgnm (by rw [e]; exact mem_inorder_node.mpr (Or.inl hxmemL))
      have hgy : g ≠ y :=
        fun e => hgnm (by rw [e]; exact mem_inorder_node.mpr (Or.inr (Or.inl rfl)))
      have hgq : ∀ q, (q ∈ ta.inorder ∨ q ∈ tb.inorder ∨ q ∈ tc.inorder) → q ≠ g :=
        fun q hq e => hgnm (e ▸ hmem3 q hq)
      cases htb : tb.rootPtr with
      | none =>
        rcases hslot with hsl | ⟨hsnl, hsr⟩
        · refine ⟨setLeft (setParent (setLeft s.heap y none) x (some g)) g (some x), s.root,
            ?_, ?_, ?_, ?_, ?_, ?_, ?_, ?_, ?_, ?_⟩
          · simp only [avl_rotate_right, hyl, hxr, htb, setLeft_right, setLeft_parent,
              setLeft_left, setParent_parent, setParent_left, if_neg hyx, if_neg hgy, hyp, hsl,
              if_pos]
          · simp [htb, hxy, hgy.symm]
          · simp [hyr, hxy, hgy.symm]
          · simp [hxl, hyx, hxy, hgx.symm]
          · simp [hyx, hgx.symm]
          · intro rp hrp; exact Option.noConfusion hrp
          · intro q; by_cases hqx : q = x <;> by_cases hqg : q = g <;> simp [hqx, hqg]
          · intro q hq
            have h1 := hq_ne_x q hq
            have h2 := hq_ne_y q hq
            have h3 := hgq q hq
            exact ⟨by simp [h1, h2, h3], by simp [h1, h2, h3], fun _ => by simp [h1, h2, h3]⟩
          · intro hcon; exact absurd hcon (Option.some_ne_none g)
          · intro g2 hg2
            obtain rfl : g = g2 := Option.some.inj hg2
            refine ⟨rfl, fun _ => ⟨by simp, by simp [hgx, hgy]⟩, fun hcon => absurd hsl hcon⟩
        · refine ⟨setRight (setParent (setLeft s.heap y none) x (some g)) g (some x), s.root,
            ?_, ?_, ?_, ?_, ?_, ?_, ?_, ?_, ?_, ?_⟩
          · simp only [avl_rotate_right, hyl, hxr, htb, setLeft_right, setLeft_parent,
              setLeft_left, setParent_parent, setParent_left, if_neg hyx, if_neg hgy, hyp, hsnl,
              if_neg, if_false]
          · simp [htb, hxy, hgy.symm]
          · simp [hyr, hxy, hgy.symm]
          · simp [hxl, hyx, hxy, hgx.symm]
          · simp [hyx, hgx.symm]
          · intro rp hrp; exact Option.noConfusion hrp
          · intro q; by_cases hqx : q = x <;> by_cases hqg : q = g <;> simp [hqx, hqg]
          · intro q hq
            have h1 := hq_ne_x q hq
            have h2 := hq_ne_y q hq
            have h3 := hgq q hq
            exact ⟨by simp [h1, h2, h3], by simp [h1, h2, h3], fun _ => by simp [h1, h2, h3]⟩
          · intro hcon; exact absurd hcon (Option.some_ne_none g)
          · intro g2 hg2
            obtain rfl : g = g2 := Option.some.inj hg2
            refine ⟨rfl, fun hcon => absurd hcon hsnl, fun _ => ⟨by simp, by simp [hgx, hgy]⟩⟩
      | some xr =>
        have hxrb : xr ∈ tb.inorder := rootPtr_mem htb
        have hyxr : y ≠ xr := fun e => hynL (mem_inorder_node.mpr (Or.inr (Or.inr (e ▸ hxrb))))
        have hxxr : x ≠ xr := fun e => hxnb (e ▸ hxrb)
        have hgxr : g ≠ xr := fun e => hgnm (e ▸ hmem3 xr (Or.inr (Or.inl hxrb)))
        rcases hslot with hsl | ⟨hsnl, hsr⟩
        · refine ⟨setLeft (setParent (setParent (setLeft s.heap y (some xr)) xr (some y)) x
              (some g)) g (some x), s.root, ?_, ?_, ?_, ?_, ?_, ?_, ?_, ?_, ?_, ?_⟩
          · simp only [avl_rotate_right, hyl, hxr, htb, setLeft_right, setLeft_parent,
              setLeft_left, setParent_parent, setParent_left, if_neg hyx, if_neg hyxr,
              if_neg hgy, hyp, hsl, if_pos]
          · simp [htb, hxy, hyxr, hgy.symm]
          · simp [hyr, hxy, hyxr, hgy.symm]
          · simp [hxl, hyx, hxy, hxxr, hgx.symm]
          · simp [hyx, hxxr, hgx.symm]
          · intro rp hrp
            obtain rfl : xr = rp := Option.some.inj hrp
            simp [hxxr.symm, hgxr.symm]
          · intro q
            by_cases hqx : q = x <;> by_cases hqxr : q = xr <;> by_cases hqg : q = g <;>
              simp [hqx, hqxr, hqg]
          · intro q hq
            have h1 := hq_ne_x q hq
            have h2 := hq_ne_y q hq
            have h3 := hgq q hq
            refine ⟨by simp [h1, h2, h3], by simp [h1, h2, h3], fun hne => ?_⟩
            have h4 : q ≠ xr := fun e => hne (congrArg some e.symm)
            simp [h1, h2, h3, h4]
          · intro hcon; exact absurd hcon (Option.some_ne_none g)
          · intro g2 hg2
            obtain rfl : g = g2 := Option.some.inj hg2
            refine ⟨rfl, fun _ => ⟨by simp, by simp [hgx, hgy, hgxr]⟩, fun hcon => absurd hsl hcon⟩
        · refine ⟨setRight (setParent (setParent (setLeft s.heap y (some xr)) xr (some y)) x
              (some g)) g (some x), s.root, ?_, ?_, ?_, ?_, ?_, ?_, ?_, ?_, ?_, ?_⟩
          · simp only [avl_rotate_right, hyl, hxr, htb, setLeft_right, setLeft_parent,
              setLeft_left, setParent_parent, setParent_left, if_neg hyx, if_neg hyxr,
              if_neg hgy, hyp, hsnl, if_neg, if_false]
          · simp [htb, hxy, hyxr, hgy.symm]
          · simp [hyr, hxy, hyxr, hgy.symm]
          · simp [hxl, hyx, hxy, hxxr, hgx.symm]
          · simp [hyx, hxxr, hgx.symm]
          · intro rp hrp
            obtain rfl : xr = rp := Option.some.inj hrp
            simp [hxxr.symm, hgxr.symm]
          · intro q
            by_cases hqx : q = x <;> by_cases hqxr : q = xr <;> by_cases hqg : q = g <;>
              simp [hqx, hqxr, hqg]
          · intro q hq
            have h1 := hq_ne_x q hq
            have h2 := hq_ne_y q hq
            have h3 := hgq q hq
            refine ⟨by simp [h1, h2, h3], by simp [h1, h2, h3], fun hne => ?_⟩
            have h4 : q ≠ xr := fun e => hne (congrArg some e.symm)
            simp [h1, h2, h3, h4]
          · intro hcon; exact absurd hcon (Option.some_ne_none g)
          · intro g2 hg2
            obtain rfl : g = g2 := Option.some.inj hg2
            refine ⟨rfl, fun hcon => absurd hcon hsnl, fun _ => ⟨by simp, by simp [hgx, hgy, hgxr]⟩⟩
  rw [hEQ]
  dsimp only
  set F := avl_update_height (avl_update_height
      (setParent (setRight w x (some y)) y (some x)) y) x with hF
  have hWh : ∀ q, (setParent (setRight w x (some y)) y (some x) q).avl_height =
      (s.heap q).avl_height := by
    intro q; simp [f6]
  have hfq : ∀ q, q ≠ x → q ≠ y →
      (F q).avl_left = (w q).avl_left ∧ (F q).avl_right = (w q).avl_right ∧
      (F q).avl_parent = (w q).avl_parent ∧ (F q).avl_height = (w q).avl_height := by
    intro q h1 h2
    rw [hF]
    refine ⟨by simp [h2], by simp [h1], by simp [h2], by simp [h1, h2]⟩
  have hfy : (F y).avl_parent = some x ∧ (F y).avl_left = (w y).avl_left ∧
      (F y).avl_right = (w y).avl_right := by
    rw [hF]
    exact ⟨by simp [hyx], by simp [hyx], by simp [hyx]⟩
  have hfx : (F x).avl_parent = (w x).avl_parent ∧ (F x).avl_left = (w x).avl_left ∧
      (F x).avl_right = some y := by
    rw [hF]
    exact ⟨by simp [hxy], by simp, by simp [hxy]⟩
  have hfyh : (F y).avl_height =
      max (avl_height s.heap tb.rootPtr) (avl_height s.heap tc.rootPtr) + 1 := by
    rw [hF, updh_height, if_neg hyx, updh_height, if_pos rfl]
    have e1 : (setParent (setRight w x (some y)) y (some x) y).avl_left = tb.rootPtr := by
      simp [f1]
    have e2 : (setParent (setRight w x (some y)) y (some x) y).avl_right = tc.rootPtr := by
      simp [hyx, f2]
    rw [e1, e2, avl_height_congr (fun p _ => hWh p), avl_height_congr (fun p _ => hWh p)]
  have hfxh : (F x).avl_height =
      max (avl_height s.heap ta.rootPtr) ((F y).avl_height) + 1 := by
    have ey : (F y).avl_height =
        (avl_update_height (setParent (setRight w x (some y)) y (some x)) y y).avl_height := by
      rw [hF, updh_height, if_neg hyx]
    rw [hF, updh_height, if_pos rfl]
    have e1 : (avl_update_height (setParent (setRight w x (some y)) y (some x)) y x).avl_left =
        ta.rootPtr := by simp [f3]
    have e2 : (avl_update_height (setParent (setRight w x (some y)) y (some x)) y x).avl_right =
        some y := by simp [hxy]
    rw [e1, e2, ey]
    have e3 : avl_height (avl_update_height (setParent (setRight w x (some y)) y (some x)) y)
        ta.rootPtr = avl_height s.heap ta.rootPtr := by
      refine avl_height_congr (fun p hp => ?_)
      have hpm : p ∈ ta.inorder := rootPtr_mem hp
      rw [updh_height, if_neg (hq_ne_y p (Or.inl hpm)), hWh p]
    rw [e3]
    rfl
  have hta : IsTree F (some x) ta.rootPtr ta := by
    refine IsTree_congr ta Ha hnda (some x) ?_ ?_ ?_
    · intro q hq
      obtain ⟨e1, e2, _⟩ := hfq q (hq_ne_x q (Or.inl hq)) (hq_ne_y q (Or.inl hq))
      obtain ⟨e3, e4, _⟩ := f7 q (Or.inl hq)
      exact ⟨e1.trans e3, e2.trans e4⟩
    · intro q hq _
      obtain ⟨_, _, e1, _⟩ := hfq q (hq_ne_x q (Or.inl hq)) (hq_ne_y q (Or.inl hq))
      obtain ⟨_, _, e2⟩ := f7 q (Or.inl hq)
      exact e1.trans (e2 (h_tb_ne q (hdab q hq)))
    · intro rp hrp
      have hpm : rp ∈ ta.inorder := rootPtr_mem hrp
      obtain ⟨_, _, e1, _⟩ := hfq rp (hq_ne_x rp (Or.inl hpm)) (hq_ne_y rp (Or.inl hpm))
      obtain ⟨_, _, e2⟩ := f7 rp (Or.inl hpm)
      rw [e1, e2 (h_tb_ne rp (hdab rp hpm))]
      exact IsTree_parent_eq (hrp ▸ Ha)
  have htbF : IsTree F (some y) tb.rootPtr tb := by
    refine IsTree_congr tb Hb hndb (some y) ?_ ?_ ?_
    · intro q hq
      obtain ⟨e1, e2, _⟩ := hfq q (hq_ne_x q (Or.inr (Or.inl hq))) (hq_ne_y q (Or.inr (Or.inl hq)))
      obtain ⟨e3, e4, _⟩ := f7 q (Or.inr (Or.inl hq))
      exact ⟨e1.trans e3, e2.trans e4⟩
    · intro q hq hne
      obtain ⟨_, _, e1, _⟩ := hfq q (hq_ne_x q (Or.inr (Or.inl hq))) (hq_ne_y q (Or.inr (Or.inl hq)))
      obtain ⟨_, _, e2⟩ := f7 q (Or.inr (Or.inl hq))
      exact e1.trans (e2 hne)
    · intro rp hrp
      have hpm : rp ∈ tb.inorder := rootPtr_mem hrp
      obtain ⟨_, _, e1, _⟩ := hfq rp (hq_ne_x rp (Or.inr (Or.inl hpm)))
        (hq_ne_y rp (Or.inr (Or.inl hpm)))
      rw [e1]
      exact f5 rp hrp
  have htcF : IsTree F (some y) tc.rootPtr tc := by
    refine IsTree_congr tc Hc hndc (some y) ?_ ?_ ?_
    · intro q hq
      obtain ⟨e1, e2, _⟩ := hfq q (hq_ne_x q (Or.inr (Or.inr hq))) (hq_ne_y q (Or.inr (Or.inr hq)))
      obtain ⟨e3, e4, _⟩ := f7 q (Or.inr (Or.inr hq))
      exact ⟨e1.trans e3, e2.trans e4⟩
    · intro q hq _
      obtain ⟨_, _, e1, _⟩ := hfq q (hq_ne_x q (Or.inr (Or.inr hq))) (hq_ne_y q (Or.inr (Or.inr hq)))
      obtain ⟨_, _, e2⟩ := f7 q (Or.inr (Or.inr hq))
      have hqnb : q ∉ tb.inorder := fun hqb =>
        hdLc q (mem_inorder_node.mpr (Or.inr (Or.inr hqb))) hq
      exact e1.trans (e2 (h_tb_ne q hqnb))
    · intro rp hrp
      have hpm : rp ∈ tc.inorder := rootPtr_mem hrp
      obtain ⟨_, _, e1, _⟩ := hfq rp (hq_ne_x rp (Or.inr (Or.inr hpm)))
        (hq_ne_y rp (Or.inr (Or.inr hpm)))
      obtain ⟨_, _, e2⟩ := f7 rp (Or.inr (Or.inr hpm))
      have hqnb : rp ∉ tb.inorder := fun hqb =>
        hdLc rp (mem_inorder_node.mpr (Or.inr (Or.inr hqb))) hpm
      rw [e1, e2 (h_tb_ne rp hqnb)]
      exact IsTree_parent_eq (hrp ▸ Hc)
  have hsub : IsTree F (some x) (some y) (T.node tb y tc) :=
    IsTree.node (some x) y tb tc hfy.1 (hfy.2.1.trans f1) (hfy.2.2.trans f2) htbF htcF
  have hmain : IsTree F gp (some x) (T.node ta x (T.node tb y tc)) :=
    IsTree.node gp x ta (T.node tb y tc) (hfx.1.trans f4) (hfx.2.1.trans f3) hfx.2.2 hta hsub
  refine ⟨hmain, ?_, ?_, hfyh, hfxh, f8, ?_⟩
  · simp [T.inorder]
  · intro q h1 h2
    obtain ⟨_, _, _, e1⟩ := hfq q h1 h2
    exact e1.trans (f6 q)
  · intro g hg
    obtain ⟨hr, hA, hB⟩ := f9 g hg
    rcases Hgp with ⟨hgpn, _⟩ | ⟨g2, hgpe, hgnm, _⟩
    · rw [hgpn] at hg; exact Option.noConfusion hg
    · rw [hgpe] at hg
      have heq : g2 = g := Option.some.inj hg
      have hgnm2 : g ∉ (T.node (T.node ta x tb) y tc).inorder := heq ▸ hgnm
      have hgx : g ≠ x := fun e => hgnm2 (by rw [e]; exact mem_inorder_node.mpr (Or.inl hxmemL))
      have hgy : g ≠ y :=
        fun e => hgnm2 (by rw [e]; exact mem_inorder_node.mpr (Or.inr (Or.inl rfl)))
      obtain ⟨e1, e2, _, _⟩ := hfq g hgx hgy
      refine ⟨hr, fun hc => ?_, fun hc => ?_⟩
      · obtain ⟨u1, u2⟩ := hA hc
        exact ⟨e1.trans u1, e2.trans u2⟩
      · obtain ⟨u1, u2⟩ := hB hc
        exact ⟨e2.trans u1, e1.trans u2⟩

/-- Full specification of avl_rotate_left at a node `x` with right child
`y`: the represented subtree node ta x (node tb y tc) becomes
node (node ta x tb) y tc with correct back-pointers; the in-order
sequence is unchanged; only the heights of `x` and `y` change, `x`'s
recomputed first and `y`'s from `x`'s new value; and the grandparent
slot (or the Root) is rewritten to the promoted child `y`. -/
theorem rotate_left_spec (s : S) (gp : Option Ptr) (x y : Ptr) (ta tb tc : T)
    (H : IsTree s.heap gp (some x) (T.node ta x (T.node tb y tc)))
    (Hnd : (T.node ta x (T.node tb y tc)).inorder.Nodup)
    (Hgp : (gp = none ∧ s.root = some x) ∨
           (∃ g, gp = some g ∧ g ∉ (T.node ta x (T.node tb y tc)).inorder ∧
             ((s.heap g).avl_left = some x ∨
              ((s.heap g).avl_left ≠ some x ∧ (s.heap g).avl_right = some x)))) :
    IsTree (avl_rotate_left s x).heap gp (some y) (T.node (T.node ta x tb) y tc) ∧
    (T.node (T.node ta x tb) y tc).inorder = (T.node ta x (T.node tb y tc)).inorder ∧
    (∀ q, q ≠ x → q ≠ y →
      ((avl_rotate_left s x).heap q).avl_height = (s.heap q).avl_height) ∧
    ((avl_rotate_left s x).heap x).avl_height =
      max (avl_height s.heap ta.rootPtr) (avl_height s.heap tb.rootPtr) + 1 ∧
    ((avl_rotate_left s x).heap y).avl_height =
      max ((avl_rotate_left s x).heap x).avl_height (avl_height s.heap tc.rootPtr) + 1 ∧
    (gp = none → (avl_rotate_left s x).root = some y) ∧
    (∀ g, gp = some g → (avl_rotate_left s x).root = s.root ∧
      ((s.heap g).avl_left = some x →
        ((avl_rotate_left s x).heap g).avl_left = some y ∧
        ((avl_rotate_left s x).heap g).avl_right = (s.heap g).avl_right) ∧
      ((s.heap g).avl_left ≠ some x →
        ((avl_rotate_left s x).heap g).avl_right = some y ∧
        ((avl_rotate_left s x).heap g).avl_left = (s.heap g).avl_left)) := by
  cases H with
  | node _ _ _ _ hxp hxl hxr Ha Hr =>
  cases Hr with
  | node _ _ _ _ hyp hyl hyr Hb Hc =>
  simp only [T.rootPtr] at hxr
  obtain ⟨hnda, hndR, hxna, hxnR, hdaR⟩ := nodup_node.mp Hnd
  obtain ⟨hndb, hndc, hynb, hync, hdbc⟩ := nodup_node.mp hndR
  have hymemR : y ∈ (T.node tb y tc).inorder := mem_inorder_node.mpr (Or.inr (Or.inl rfl))
  have hxy : x ≠ y := fun e => hxnR (e ▸ hymemR)
  have hyx : y ≠ x := fun e => hxy e.symm
  have hmem3 : ∀ q, (q ∈ ta.inorder ∨ q ∈ tb.inorder ∨ q ∈ tc.inorder) →
      q ∈ (T.node ta x (T.node tb y tc)).inorder := by
    intro q hq
    rcases hq with hq | hq | hq
    · exact mem_inorder_node.mpr (Or.inl hq)
    · exact mem_inorder_node.mpr (Or.inr (Or.inr (mem_inorder_node.mpr (Or.inl hq))))
    · exact mem_inorder_node.mpr (Or.inr (Or.inr (mem_inorder_node.mpr (Or.inr (Or.inr hq)))))
  have hq_ne_x : ∀ q, (q ∈ ta.inorder ∨ q ∈ tb.inorder ∨ q ∈ tc.inorder) → q ≠ x := by
    intro q hq e
    subst e
    rcases hq with hq | hq | hq
    · exact hxna hq
    · exact hxnR (mem_inorder_node.mpr (Or.inl hq))
    · exact hxnR (mem_inorder_node.mpr (Or.inr (Or.inr hq)))
  have hq_ne_y : ∀ q, (q ∈ ta.inorder ∨ q ∈ tb.inorder ∨ q ∈ tc.inorder) → q ≠ y := by
    intro q hq e
    subst e
    rcases hq with hq | hq | hq
    · exact hdaR q hq hymemR
    · exact hynb hq
    · exact hync hq
  have h_tb_ne : ∀ q, q ∉ tb.inorder → tb.rootPtr ≠ some q := fun q hq e => hq (rootPtr_mem e)
  obtain ⟨w, r4, hEQ, f1, f2, f3, f4, f5, f6, f7, f8, f9⟩ :
      ∃ w r4, avl_rotate_left s x =
        { heap := avl_update_height (avl_update_height
            (setParent (setLeft w y (some x)) x (some y)) x) y, root := r4 } ∧
        (w x).avl_right = tb.rootPtr ∧
        (w x).avl_left = ta.rootPtr ∧
        (w y).avl_right = tc.rootPtr ∧
        (w y).avl_parent = gp ∧
        (∀ rp, tb.rootPtr = some rp → (w rp).avl_parent = some x) ∧
        (∀ q, (w q).avl_height = (s.heap q).avl_height) ∧
        (∀ q, (q ∈ ta.inorder ∨ q ∈ tb.inorder ∨ q ∈ tc.inorder) →
          (w q).avl_left = (s.heap q).avl_left ∧
          (w q).avl_right = (s.heap q).avl_right ∧
          (tb.rootPtr ≠ some q → (w q).avl_parent = (s.heap q).avl_parent)) ∧
        (gp = none → r4 = some y) ∧
        (∀ g, gp = some g → r4 = s.root ∧
          ((s.heap g).avl_left = some x →
            (w g).avl_left = some y ∧ (w g).avl_right = (s.heap g).avl_right) ∧
          ((s.heap g).avl_left ≠ some x →
            (w g).avl_right = some y ∧ (w g).avl_left = (s.heap g).avl_left)) := by
    rcases Hgp with ⟨hgpn, hroot⟩ | ⟨g, hgpe, hgnm, hslot⟩
    · subst hgpn
      cases htb : tb.rootPtr with
      | none =>
        refine ⟨setParent (setRight s.heap x none) y none, some y,
          ?_, ?_, ?_, ?_, ?_, ?_, ?_, ?_, ?_, ?_⟩
        · simp only [avl_rotate_left, hxr, hyl, htb, setRight_left, setRight_parent,
            setParent_parent, if_neg hxy, hxp]
        · simp [htb, hyx]
        · simp [hxl, hyx]
        · simp [hyr, hxy, hyx]
        · simp [hxy]
        · intro rp hrp; exact Option.noConfusion hrp
        · intro q; by_cases hqy : q = y <;> simp [hqy]
        · intro q hq
          have h1 := hq_ne_x q hq
          have h2 := hq_ne_y q hq
          exact ⟨by simp [h1, h2], by simp [h1, h2], fun _ => by simp [h1, h2]⟩
        · intro; rfl
        · intro g hg; exact Option.noConfusion hg
      | some yl =>
        have hylb : yl ∈ tb.inorder := rootPtr_mem htb
        have hxyl : x ≠ yl := fun e => hxnR (mem_inorder_node.mpr (Or.inl (e ▸ hylb)))
        have hyyl : y ≠ yl := fun e => hynb (e ▸ hylb)
        refine ⟨setParent (setParent (setRight s.heap x (some yl)) yl (some x)) y none, some y,
          ?_, ?_, ?_, ?_, ?_, ?_, ?_, ?_, ?_, ?_⟩
        · simp only [avl_rotate_left, hxr, hyl, htb, setRight_left, setRight_parent,
            setParent_parent, if_neg hxy, if_neg hxyl, hxp]
        · simp [htb, hyx, hxyl]
        · simp [hxl, hyx, hxyl]
        · simp [hyr, hxy, hyx, hyyl]
        · simp [hxy, hyyl]
        · intro rp hrp
          obtain rfl : yl = rp := Option.some.inj hrp
          simp [hyyl.symm]
        · intro q; by_cases hqy : q = y <;> by_cases hqyl : q = yl <;> simp [hqy, hqyl]
        · intro q hq
          have h1 := hq_ne_x q hq
          have h2 := hq_ne_y q hq
          refine ⟨by simp [h1, h2], by simp [h1, h2], fun hne => ?_⟩
          have h3 : q ≠ yl := fun e => hne (congrArg some e.symm)
          simp [h1, h2, h3]
        · intro; rfl
        · intro g hg; exact Option.noConfusion hg
    · subst hgpe
      have hgx : g ≠ x := fun e => hgnm (by rw [e]; exact mem_inorder_node.mpr (Or.inr (Or.inl rfl)))
      have hgy : g ≠ y :=
        fun e => hgnm (by rw [e]; exact mem_inorder_node.mpr (Or.inr (Or.inr hymemR)))
      have hgq : ∀ q, (q ∈ ta.inorder ∨ q ∈ tb.inorder ∨ q ∈ tc.inorder) → q ≠ g :=
        fun q hq e => hgnm (e ▸ hmem3 q hq)
      cases htb : tb.rootPtr with
      | none =>
        rcases hslot with hsl | ⟨hsnl, hsr⟩
        · refine ⟨setLeft (setParent (setRight s.heap x none) y (some g)) g (some y), s.root,
            ?_, ?_, ?_, ?_, ?_, ?_, ?_, ?_, ?_, ?_⟩
          · simp only [avl_rotate_left, hxr, hyl, htb, setRight_left, setRight_parent,
              setLeft_left, setParent_parent, setParent_left, if_neg hxy, if_neg hgx, hxp, hsl,
              if_pos]
          · simp [htb, hyx, hgx.symm]
          · simp [hxl, hyx, hgx.symm]
          · simp [hyr, hxy, hyx, hgy.symm]
          · simp [hxy, hgy.symm]
          · intro rp hrp; exact Option.noConfusion hrp
          · intro q; by_cases hqy : q = y <;> by_cases hqg : q = g <;> simp [hqy, hqg]
          · intro q hq
            have h1 := hq_ne_x q hq
            have h2 := hq_ne_y q hq
            have h3 := hgq q hq
            exact ⟨by simp [h1, h2, h3], by simp [h1, h2, h3], fun _ => by simp [h1, h2, h3]⟩
          · intro hcon; exact absurd hcon (Option.some_ne_none g)
          · intro g2 hg2
            obtain rfl : g = g2 := Option.some.inj hg2
            refine ⟨rfl, fun _ => ⟨by simp, by simp [hgx, hgy]⟩, fun hcon => absurd hsl hcon⟩
        · refine ⟨setRight (setParent (setRight s.heap x none) y (some g)) g (some y), s.root,
            ?_, ?_, ?_, ?_, ?_, ?_, ?_, ?_, ?_, ?_⟩
          · simp only [avl_rotate_left, hxr, hyl, htb, setRight_left, setRight_parent,
              setLeft_left, setParent_parent, setParent_left, if_neg hxy, if_neg hgx, hxp, hsnl,
              if_neg, if_false]
          · simp [htb, hyx, hgx.symm]
          · simp [hxl, hyx, hgx.symm]
          · simp [hyr, hxy, hyx, hgy.symm]
          · simp [hxy, hgy.symm]
          · intro rp hrp; exact Option.noConfusion hrp
          · intro q; by_cases hqy : q = y <;> by_cases hqg : q = g <;> simp [hqy, hqg]
          · intro q hq
            have h1 := hq_ne_x q hq
            have h2 := hq_ne_y q hq
            have h3 := hgq q hq
            exact ⟨by simp [h1, h2, h3], by simp [h1, h2, h3], fun _ => by simp [h1, h2, h3]⟩
          · intro hcon; exact absurd hcon (Option.some_ne_none g)
          · intro g2 hg2
            obtain rfl : g = g2 := Option.some.inj hg2
            refine ⟨rfl, fun hcon => absurd hcon hsnl, fun _ => ⟨by simp, by simp [hgx, hgy]⟩⟩
      | some yl =>
        have hylb : yl ∈ tb.inorder := rootPtr_mem htb
        have hxyl : x ≠ yl := fun e => hxnR (mem_inorder_node.mpr (Or.inl (e ▸ hylb)))
        have hyyl : y ≠ yl := fun e => hynb (e ▸ hylb)
        have hgyl : g ≠ yl := fun e => hgnm (e ▸ hmem3 yl (Or.inr (Or.inl hylb)))
        rcases hslot with hsl | ⟨hsnl, hsr⟩
        · refine ⟨setLeft (setParent (setParent (setRight s.heap x (some yl)) yl (some x)) y
              (some g)) g (some y), s.root, ?_, ?_, ?_, ?_, ?_, ?_, ?_, ?_, ?_, ?_⟩
          · simp only [avl_rotate_left, hxr, hyl, htb, setRight_left, setRight_parent,
              setLeft_left, setParent_parent, setParent_left, if_neg hxy, if_neg hxyl,
              if_neg hgx, hxp, hsl, if_pos]
          · simp [htb, hyx, hxyl, hgx.symm]
          · simp [hxl, hyx, hxyl, hgx.symm]
          · simp [hyr, hxy, hyx, hyyl, hgy.symm]
          · simp [hxy, hyyl, hgy.symm]
          · intro rp hrp
            obtain rfl : yl = rp := Option.some.inj hrp
            simp [hyyl.symm, hgyl.symm]
          · intro q
            by_cases hqy : q = y <;> by_cases hqyl : q = yl <;> by_cases hqg : q = g <;>
              simp [hqy, hqyl, hqg]
          · intro q hq
            have h1 := hq_ne_x q hq
            have h2 := hq_ne_y q hq
            have h3 := hgq q hq
            refine ⟨by simp [h1, h2, h3], by simp [h1, h2, h3], fun hne => ?_⟩
            have h4 : q ≠ yl := fun e => hne (congrArg some e.symm)
            simp [h1, h2, h3, h4]
          · intro hcon; exact absurd hcon (Option.some_ne_none g)
          · intro g2 hg2
            obtain rfl : g = g2 := Option.some.inj hg2
            refine ⟨rfl, fun _ => ⟨by simp, by simp [hgx, hgy, hgyl]⟩, fun hcon => absurd hsl hcon⟩
        · refine ⟨setRight (setParent (setParent (setRight s.heap x (some yl)) yl (some x)) y
              (some g)) g (some y), s.root, ?_, ?_, ?_, ?_, ?_, ?_, ?_, ?_, ?_, ?_⟩
          · simp only [avl_rotate_left, hxr, hyl, htb, setRight_left, setRight_parent,
              setLeft_left, setParent_parent, setParent_left, if_neg hxy, if_neg hxyl,
              if_neg hgx, hxp, hsnl, if_neg, if_false]
          · simp [htb, hyx, hxyl, hgx.symm]
          · simp [hxl, hyx, hxyl, hgx.symm]
          · simp [hyr, hxy, hyx, hyyl, hgy.symm]
          · simp [hxy, hyyl, hgy.symm]
          · intro rp hrp
            obtain rfl : yl = rp := Option.some.inj hrp
            simp [hyyl.symm, hgyl.symm]
          · intro q
            by_cases hqy : q = y <;> by_cases hqyl : q = yl <;> by_cases hqg : q = g <;>
              simp [hqy, hqyl, hqg]
          · intro q hq
            have h1 := hq_ne_x q hq
            have h2 := hq_ne_y q hq
            have h3 := hgq q hq
            refine ⟨by simp [h1, h2, h3], by simp [h1, h2, h3], fun hne => ?_⟩
            have h4 : q ≠ yl := fun e => hne (congrArg some e.symm)
            simp [h1, h2, h3, h4]
          · intro hcon; exact absurd hcon (Option.some_ne_none g)
          · intro g2 hg2
            obtain rfl : g = g2 := Option.some.inj hg2
            refine ⟨rfl, fun hcon => absurd hcon hsnl, fun _ => ⟨by simp, by simp [hgx, hgy, hgyl]⟩⟩
  rw [hEQ]
  dsimp only
  set F := avl_update_height (avl_update_height
      (setParent (setLeft w y (some x)) x (some y)) x) y with hF
  have hWh : ∀ q, (setParent (setLeft w y (some x)) x (some y) q).avl_height =
      (s.heap q).avl_height := by
    intro q; simp [f6]
  have hfq : ∀ q, q ≠ x → q ≠ y →
      (F q).avl_left = (w q).avl_left ∧ (F q).avl_right = (w q).avl_right ∧
      (F q).avl_parent = (w q).avl_parent ∧ (F q).avl_height = (w q).avl_height := by
    intro q h1 h2
    rw [hF]
    refine ⟨by simp [h2], by simp [h1], by simp [h1], by simp [h1, h2]⟩
  have hfx : (F x).avl_parent = some y ∧ (F x).avl_left = (w x).avl_left ∧
      (F x).avl_right = (w x).avl_right := by
    rw [hF]
    exact ⟨by simp [hxy], by simp [hxy], by simp [hxy]⟩
  have hfy : (F y).avl_parent = (w y).avl_parent ∧ (F y).avl_left = some x ∧
      (F y).avl_right = (w y).avl_right := by
    rw [hF]
    exact ⟨by simp [hyx], by simp [hyx], by simp [hyx]⟩
  have hfxh : (F x).avl_height =
      max (avl_height s.heap ta.rootPtr) (avl_height s.heap tb.rootPtr) + 1 := by
    rw [hF, updh_height, if_neg hxy, updh_height, if_pos rfl]
    have e1 : (setParent (setLeft w y (some x)) x (some y) x).avl_left = ta.rootPtr := by
      simp [hxy, f2]
    have e2 : (setParent (setLeft w y (some x)) x (some y) x).avl_right = tb.rootPtr := by
      simp [hxy, f1]
    rw [e1, e2, avl_height_congr (fun p _ => hWh p), avl_height_congr (fun p _ => hWh p)]
  have hfyh2 : (F y).avl_height =
      max ((F x).avl_height) (avl_height s.heap tc.rootPtr) + 1 := by
    rw [hF, updh_height, if_pos rfl]
    have e1 : (avl_update_height (setParent (setLeft w y (some x)) x (some y)) x y).avl_left =
        some x := by simp [hyx]
    have e2 : (avl_update_height (setParent (setLeft w y (some x)) x (some y)) x y).avl_right =
        tc.rootPtr := by simp [hyx, f3]
    rw [e1, e2]
    have e3 : avl_height (avl_update_height (setParent (setLeft w y (some x)) x (some y)) x)
        tc.rootPtr = avl_height s.heap tc.rootPtr := by
      refine avl_height_congr (fun p hp => ?_)
      have hpm : p ∈ tc.inorder := rootPtr_mem hp
      rw [updh_height, if_neg (hq_ne_x p (Or.inr (Or.inr hpm))), hWh p]
    rw [e3]
    have e5 : avl_height (avl_update_height (setParent (setLeft w y (some x)) x (some y)) x)
        (some x) = (F x).avl_height := by
      simp [hF, avl_height_some, hxy]
    rw [e5]
  have hta : IsTree F (some x) ta.rootPtr ta := by
    refine IsTree_congr ta Ha hnda (some x) ?_ ?_ ?_
    · intro q hq
      obtain ⟨e1, e2, _⟩ := hfq q (hq_ne_x q (Or.inl hq)) (hq_ne_y q (Or.inl hq))
      obtain ⟨e3, e4, _⟩ := f7 q (Or.inl hq)
      exact ⟨e1.trans e3, e2.trans e4⟩
    · intro q hq _
      obtain ⟨_, _, e1, _⟩ := hfq q (hq_ne_x q (Or.inl hq)) (hq_ne_y q (Or.inl hq))
      obtain ⟨_, _, e2⟩ := f7 q (Or.inl hq)
      have hqnb : q ∉ tb.inorder := fun hqb =>
        hdaR q hq (mem_inorder_node.mpr (Or.inl hqb))
      exact e1.trans (e2 (h_tb_ne q hqnb))
    · intro rp hrp
      have hpm : rp ∈ ta.inorder := rootPtr_mem hrp
      obtain ⟨_, _, e1, _⟩ := hfq rp (hq_ne_x rp (Or.inl hpm)) (hq_ne_y rp (Or.inl hpm))
      obtain ⟨_, _, e2⟩ := f7 rp (Or.inl hpm)
      have hqnb : rp ∉ tb.inorder := fun hqb =>
        hdaR rp hpm (mem_inorder_node.mpr (Or.inl hqb))
      rw [e1, e2 (h_tb_ne rp hqnb)]
      exact IsTree_parent_eq (hrp ▸ Ha)
  have htbF : IsTree F (some x) tb.rootPtr tb := by
    refine IsTree_congr tb Hb hndb (some x) ?_ ?_ ?_
    · intro q hq
      obtain ⟨e1, e2, _⟩ := hfq q (hq_ne_x q (Or.inr (Or.inl hq))) (hq_ne_y q (Or.inr (Or.inl hq)))
      obtain ⟨e3, e4, _⟩ := f7 q (Or.inr (Or.inl hq))
      exact ⟨e1.trans e3, e2.trans e4⟩
    · intro q hq hne
      obtain ⟨_, _, e1, _⟩ := hfq q (hq_ne_x q (Or.inr (Or.inl hq))) (hq_ne_y q (Or.inr (Or.inl hq)))
      obtain ⟨_, _, e2⟩ := f7 q (Or.inr (Or.inl hq))
      exact e1.trans (e2 hne)
    · intro rp hrp
      have hpm : rp ∈ tb.inorder := rootPtr_mem hrp
      obtain ⟨_, _, e1, _⟩ := hfq rp (hq_ne_x rp (Or.inr (Or.inl hpm)))
        (hq_ne_y rp (Or.inr (Or.inl hpm)))
      rw [e1]
      exact f5 rp hrp
  have htcF : IsTree F (some y) tc.rootPtr tc := by
    refine IsTree_congr tc Hc hndc (some y) ?_ ?_ ?_
    · intro q hq
      obtain ⟨e1, e2, _⟩ := hfq q (hq_ne_x q (Or.inr (Or.inr hq))) (hq_ne_y q (Or.inr (Or.inr hq)))
      obtain ⟨e3, e4, _⟩ := f7 q (Or.inr (Or.inr hq))
      exact ⟨e1.trans e3, e2.trans e4⟩
    · intro q hq _
      obtain ⟨_, _, e1, _⟩ := hfq q (hq_ne_x q (Or.inr (Or.inr hq))) (hq_ne_y q (Or.inr (Or.inr hq)))
      obtain ⟨_, _, e2⟩ := f7 q (Or.inr (Or.inr hq))
      have hqnb : q ∉ tb.inorder := fun hqb => hdbc q hqb hq
      exact e1.trans (e2 (h_tb_ne q hqnb))
    · intro rp hrp
      have hpm : rp ∈ tc.inorder := rootPtr_mem hrp
      obtain ⟨_, _, e1, _⟩ := hfq rp (hq_ne_x rp (Or.inr (Or.inr hpm)))
        (hq_ne_y rp (Or.inr (Or.inr hpm)))
      obtain ⟨_, _, e2⟩ := f7 rp (Or.inr (Or.inr hpm))
      have hqnb : rp ∉ tb.inorder := fun hqb => hdbc rp hqb hpm
      rw [e1, e2 (h_tb_ne rp hqnb)]
      exact IsTree_parent_eq (hrp ▸ Hc)
  have hsub : IsTree F (some y) (some x) (T.node ta x tb) :=
    IsTree.node (some y) x ta tb hfx.1 (hfx.2.1.trans f2) (hfx.2.2.trans f1) hta htbF
  have hmain : IsTree F gp (some y) (T.node (T.node ta x tb) y tc) :=
    IsTree.node gp y (T.node ta x tb) tc (hfy.1.trans f4) hfy.2.1 (hfy.2.2.trans f3) hsub htcF
  refine ⟨hmain, ?_, ?_, hfxh, hfyh2, f8, ?_⟩
  · simp [T.inorder]
  · intro q h1 h2
    obtain ⟨_, _, _, e1⟩ := hfq q h1 h2
    exact e1.trans (f6 q)
  · intro g hg
    obtain ⟨hr, hA, hB⟩ := f9 g hg
    rcases Hgp with ⟨hgpn, _⟩ | ⟨g2, hgpe, hgnm, _⟩
    · rw [hgpn] at hg; exact Option.noConfusion hg
    · rw [hgpe] at hg
      have heq : g2 = g := Option.some.inj hg
      have hgnm2 : g ∉ (T.node ta x (T.node tb y tc)).inorder := heq ▸ hgnm
      have hgx : g ≠ x :=
        fun e => hgnm2 (by rw [e]; exact mem_inorder_node.mpr (Or.inr (Or.inl rfl)))
      have hgy : g ≠ y :=
        fun e => hgnm2 (by rw [e]; exact mem_inorder_node.mpr (Or.inr (Or.inr hymemR)))
      obtain ⟨e1, e2, _, _⟩ := hfq g hgx hgy
      refine ⟨hr, fun hc => ?_, fun hc => ?_⟩
      · obtain ⟨u1, u2⟩ := hA hc
        exact ⟨e1.trans u1, e2.trans u2⟩
      · obtain ⟨u1, u2⟩ := hB hc
        exact ⟨e2.trans u1, e1.trans u2⟩

/-- Claim C4: for every tree and node with a non-absent left
(respectively right) child, avl_rotate_right (respectively
avl_rotate_left) leaves the in-order sequence unchanged, changes the
stored height of exactly the two nodes involved (the demoted node's
height recomputed first, the promoted node's from it), and rewrites the
grandparent's child slot — or the Root when the node was the root — to
the promoted child. -/
theorem C4_rotations_pure_transform :
    (∀ (s : S) (gp : Option Ptr) (x y : Ptr) (ta tb tc : T),
      IsTree s.heap gp (some y) (T.node (T.node ta x tb) y tc) →
      (T.node (T.node ta x tb) y tc).inorder.Nodup →
      ((gp = none ∧ s.root = some y) ∨
        (∃ g, gp = some g ∧ g ∉ (T.node (T.node ta x tb) y tc).inorder ∧
          ((s.heap g).avl_left = some y ∨
            ((s.heap g).avl_left ≠ some y ∧ (s.heap g).avl_right = some y)))) →
      IsTree (avl_rotate_right s y).heap gp (some x) (T.node ta x (T.node tb y tc)) ∧
      (T.node ta x (T.node tb y tc)).inorder = (T.node (T.node ta x tb) y tc).inorder ∧
      (∀ q, q ≠ x → q ≠ y →
        ((avl_rotate_right s y).heap q).avl_height = (s.heap q).avl_height) ∧
      ((avl_rotate_right s y).heap y).avl_height =
        max (avl_height s.heap tb.rootPtr) (avl_height s.heap tc.rootPtr) + 1 ∧
      ((avl_rotate_right s y).heap x).avl_height =
        max (avl_height s.heap ta.rootPtr) ((avl_rotate_right s y).heap y).avl_height + 1 ∧
      (gp = none → (avl_rotate_right s y).root = some x) ∧
      (∀ g, gp = some g → (avl_rotate_right s y).root = s.root ∧
        ((s.heap g).avl_left = some y →
          ((avl_rotate_right s y).heap g).avl_left = some x ∧
          ((avl_rotate_right s y).heap g).avl_right = (s.heap g).avl_right) ∧
        ((s.heap g).avl_left ≠ some y →
          ((avl_rotate_right s y).heap g).avl_right = some x ∧
          ((avl_rotate_right s y).heap g).avl_left = (s.heap g).avl_left))) ∧
    (∀ (s : S) (gp : Option Ptr) (x y : Ptr) (ta tb tc : T),
      IsTree s.heap gp (some x) (T.node ta x (T.node tb y tc)) →
      (T.node ta x (T.node tb y tc)).inorder.Nodup →
      ((gp = none ∧ s.root = some x) ∨
        (∃ g, gp = some g ∧ g ∉ (T.node ta x (T.node tb y tc)).inorder ∧
          ((s.heap g).avl_left = some x ∨
            ((s.heap g).avl_left ≠ some x ∧ (s.heap g).avl_right = some x)))) →
      IsTree (avl_rotate_left s x).heap gp (some y) (T.node (T.node ta x tb) y tc) ∧
      (T.node (T.node ta x tb) y tc).inorder = (T.node ta x (T.node tb y tc)).inorder ∧
      (∀ q, q ≠ x → q ≠ y →
        ((avl_rotate_left s x).heap q).avl_height = (s.heap q).avl_height) ∧
      ((avl_rotate_left s x).heap x).avl_height =
        max (avl_height s.heap ta.rootPtr) (avl_height s.heap tb.rootPtr) + 1 ∧
      ((avl_rotate_left s x).heap y).avl_height =
        max ((avl_rotate_left s x).heap x).avl_height (avl_height s.heap tc.rootPtr) + 1 ∧
      (gp = none → (avl_rotate_left s x).root = some y) ∧
      (∀ g, gp = some g → (avl_rotate_left s x).root = s.root ∧
        ((s.heap g).avl_left = some x →
          ((avl_rotate_left s x).heap g).avl_left = some y ∧
          ((avl_rotate_left s x).heap g).avl_right = (s.heap g).avl_right) ∧
        ((s.heap g).avl_left ≠ some x →
          ((avl_rotate_left s x).heap g).avl_right = some y ∧
          ((avl_rotate_left s x).heap g).avl_left = (s.heap g).avl_left))) :=
  ⟨fun s gp x y ta tb tc H hnd hgp => rotate_right_spec s gp x y ta tb tc H hnd hgp,
   fun s gp x y ta tb tc H hnd hgp => rotate_left_spec s gp x y ta tb tc H hnd hgp⟩

/-- Witness for claim C4: both rotations instantiated on concrete
two-node trees, hypotheses discharged by explicit derivations. -/
theorem C4_rotations_pure_transform_witness :
    (IsTree wsR.heap none (some 0) (T.node (T.node T.leaf 1 T.leaf) 0 T.leaf) ∧
     (T.node (T.node T.leaf 1 T.leaf) 0 T.leaf).inorder.Nodup ∧
     ((none : Option Ptr) = none ∧ wsR.root = some 0) ∧
     IsTree (avl_rotate_right wsR 0).heap none (some 1)
       (T.node T.leaf 1 (T.node T.leaf 0 T.leaf))) ∧
    (IsTree wsL.heap none (some 0) (T.node T.leaf 0 (T.node T.leaf 1 T.leaf)) ∧
     IsTree (avl_rotate_left wsL 0).heap none (some 1)
       (T.node (T.node T.leaf 0 T.leaf) 1 T.leaf)) := by
  have hTR : IsTree wsR.heap none (some 0) (T.node (T.node T.leaf 1 T.leaf) 0 T.leaf) :=
    IsTree.node none 0 (T.node T.leaf 1 T.leaf) T.leaf rfl rfl rfl
      (IsTree.node (some 0) 1 T.leaf T.leaf rfl rfl rfl (IsTree.leaf _) (IsTree.leaf _))
      (IsTree.leaf _)
  have hTL : IsTree wsL.heap none (some 0) (T.node T.leaf 0 (T.node T.leaf 1 T.leaf)) :=
    IsTree.node none 0 T.leaf (T.node T.leaf 1 T.leaf) rfl rfl rfl (IsTree.leaf _)
      (IsTree.node (some 0) 1 T.leaf T.leaf rfl rfl rfl (IsTree.leaf _) (IsTree.leaf _))
  have hndR : (T.node (T.node T.leaf 1 T.leaf) 0 T.leaf).inorder.Nodup := by decide
  have hndL : (T.node T.leaf 0 (T.node T.leaf 1 T.leaf)).inorder.Nodup := by decide
  refine ⟨⟨hTR, hndR, ⟨rfl, rfl⟩, ?_⟩, ⟨hTL, ?_⟩⟩
  · exact (C4_rotations_pure_transform.1 wsR none 1 0 T.leaf T.leaf T.leaf hTR hndR
      (Or.inl ⟨rfl, rfl⟩)).1
  · exact (C4_rotations_pure_transform.2 wsL none 0 1 T.leaf T.leaf T.leaf hTL hndL
      (Or.inl ⟨rfl, rfl⟩)).1

theorem rheight_nonneg : ∀ t : T, 0 ≤ t.rheight := by
  intro t
  induction t with
  | leaf => simp [T.rheight]
  | node l p r ihl ihr => simp only [T.rheight]; omega

theorem heightOKb_node {h : Heap} {l : T} {p : Ptr} {r : T}
    (H : heightOKb h (T.node l p r) = true) :
    heightOKb h l = true ∧ heightOKb h r = true ∧
      (h p).avl_height = max l.rheight r.rheight + 1 := by
  simp only [heightOKb, Bool.and_eq_true, beq_iff_eq] at H
  exact ⟨H.1.1, H.1.2, H.2⟩

theorem heightOK_root {h : Heap} {t : T} (H : heightOKb h t = true) :
    avl_height h t.rootPtr = t.rheight := by
  cases t with
  | leaf => rfl
  | node l p r =>
    simp only [T.rootPtr, avl_height_some, T.rheight]
    exact (heightOKb_node H).2.2

/-- Claim C9: under the height-correctness invariant, when the rebalance
walker computes balance > 1 at a node the left child is present (its
stored height is at least 2), the unchecked child accesses are safe, the
left-rotation precondition holds whenever the left-right case triggers,
and after the optional inner rotation the node still has a left child
for the outer right rotation; symmetrically for balance < -1. -/
theorem C9_rebalance_safety (h : Heap) (par : Option Ptr) (p : Ptr) (tl tr : T)
    (H : IsTree h par (some p) (T.node tl p tr))
    (Hnd : (T.node tl p tr).inorder.Nodup)
    (Hok : heightOKb h (T.node tl p tr) = true) :
    (1 < avl_height h (h p).avl_left - avl_height h (h p).avl_right →
      ∃ l, (h p).avl_left = some l ∧ 2 ≤ (h l).avl_height ∧
        (avl_height h (h l).avl_left < avl_height h (h l).avl_right →
          (h l).avl_right ≠ none) ∧
        (∀ r : Option Ptr, ((avl_rotate_left ⟨h, r⟩ l).heap p).avl_left ≠ none)) ∧
    (avl_height h (h p).avl_left - avl_height h (h p).avl_right < -1 →
      ∃ rr, (h p).avl_right = some rr ∧ 2 ≤ (h rr).avl_height ∧
        (avl_height h (h rr).avl_right < avl_height h (h rr).avl_left →
          (h rr).avl_left ≠ none) ∧
        (∀ r : Option Ptr, ((avl_rotate_right ⟨h, r⟩ rr).heap p).avl_right ≠ none)) := by
  cases H with
  | node _ _ _ _ hpp hpl hpr Hlt Hrt =>
  obtain ⟨hoktl, hoktr, hokp⟩ := heightOKb_node Hok
  obtain ⟨hndtl, hndtr, hpntl, hpntr, hdlr⟩ := nodup_node.mp Hnd
  constructor
  · intro hbal
    rw [hpl, hpr, heightOK_root hoktl, heightOK_root hoktr] at hbal
    have htr0 := rheight_nonneg tr
    cases tl with
    | leaf => simp [T.rheight] at hbal; omega
    | node tll l tlr =>
      obtain ⟨hokll, hoklr, hokl⟩ := heightOKb_node hoktl
      have hpl2 : (h p).avl_left = some l := by rw [hpl]; rfl
      refine ⟨l, hpl2, ?_, ?_, ?_⟩
      · rw [hokl]
        have h1 := rheight_nonneg tll
        have h2 := rheight_nonneg tlr
        simp only [T.rheight] at hbal
        omega
      · intro hcond
        cases Hlt with
        | node _ _ _ _ hlp hll hlr Hll Hlr =>
        rw [hll, hlr, heightOK_root hokll, heightOK_root hoklr] at hcond
        have h1 := rheight_nonneg tll
        cases tlr with
        | leaf => simp [T.rheight] at hcond; omega
        | node t1 lr t2 => rw [hlr]; simp [T.rootPtr]
      · intro r
        cases Hlt with
        | node _ _ _ _ hlp hll hlr Hll Hlr =>
        cases tlr with
        | leaf =>
          have hlrn : (h l).avl_right = none := by rw [hlr]; rfl
          have : avl_rotate_left ⟨h, r⟩ l = ⟨h, r⟩ := by
            simp only [avl_rotate_left, hlrn]
          rw [this]
          simp [hpl2]
        | node t1 lr t2 =>
          obtain ⟨hndll, hndlr, hlnll, hlnlr, hdllr⟩ := nodup_node.mp hndtl
          have hpnl : p ∉ (T.node tll l (T.node t1 lr t2)).inorder := hpntl
          have spec := rotate_left_spec ⟨h, r⟩ (some p) l lr tll t1 t2
            (IsTree.node (some p) l tll (T.node t1 lr t2) hlp hll hlr Hll Hlr)
            hndtl
            (Or.inr ⟨p, rfl, hpnl, Or.inl hpl2⟩)
          obtain ⟨hrA, hrB⟩ := (spec.2.2.2.2.2.2 p rfl).2.1 hpl2 |>.imp id id
          rw [hrA]
          exact Option.some_ne_none lr
  · intro hbal
    rw [hpl, hpr, heightOK_root hoktl, heightOK_root hoktr] at hbal
    have htl0 := rheight_nonneg tl
    cases tr with
    | leaf => simp [T.rheight] at hbal; omega
    | node trl rr trr =>
      obtain ⟨hokrl, hokrr, hokr⟩ := heightOKb_node hoktr
      have hpr2 : (h p).avl_right = some rr := by rw [hpr]; rfl
      refine ⟨rr, hpr2, ?_, ?_, ?_⟩
      · rw [hokr]
        have h1 := rheight_nonneg trl
        have h2 := rheight_nonneg trr
        simp only [T.rheight] at hbal
        omega
      · intro hcond
        cases Hrt with
        | node _ _ _ _ hrp hrl hrr Hrl Hrr =>
        rw [hrl, hrr, heightOK_root hokrl, heightOK_root hokrr] at hcond
        have h1 := rheight_nonneg trr
        cases trl with
        | leaf => simp [T.rheight] at hcond; omega
        | node t1 rl t2 => rw [hrl]; simp [T.rootPtr]
      · intro r
        cases Hrt with
        | node _ _ _ _ hrp hrl hrr Hrl Hrr =>
        cases trl with
        | leaf =>
          have hrln : (h rr).avl_left = none := by rw [hrl]; rfl
          have : avl_rotate_right ⟨h, r⟩ rr = ⟨h, r⟩ := by
            simp only [avl_rotate_right, hrln]
          rw [this]
          simp [hpr2]
        | node t1 rl t2 =>
          have hpnr : p ∉ (T.node (T.node t1 rl t2) rr trr).inorder := hpntr
          have hpleft : (h p).avl_left ≠ some rr := by
            rw [hpl]
            intro e
            have : rr ∈ tl.inorder := rootPtr_mem e
            exact hdlr rr this (mem_inorder_node.mpr (Or.inr (Or.inl rfl)))
          have spec := rotate_right_spec ⟨h, r⟩ (some p) rl rr t1 t2 trr
            (IsTree.node (some p) rr (T.node t1 rl t2) trr hrp hrl hrr Hrl Hrr)
            hndtr
            (Or.inr ⟨p, rfl, hpnr, Or.inr ⟨hpleft, hpr2⟩⟩)
          obtain ⟨hrA, hrB⟩ := (spec.2.2.2.2.2.2 p rfl).2.2 hpleft
          rw [hrA]
          exact Option.some_ne_none rl

/-- Witness for claim C9: the safety facts instantiated on a concrete
left-left-heavy heap with the invariant discharged by decide. -/
theorem C9_rebalance_safety_witness :
    (IsTree wheap9 none (some 0)
        (T.node (T.node (T.node T.leaf 2 T.leaf) 1 T.leaf) 0 T.leaf) ∧
     (T.node (T.node (T.node T.leaf 2 T.leaf) 1 T.leaf) 0 T.leaf).inorder.Nodup ∧
     heightOKb wheap9 (T.node (T.node (T.node T.leaf 2 T.leaf) 1 T.leaf) 0 T.leaf) = true) ∧
    ((1 < avl_height wheap9 (wheap9 0).avl_left - avl_height wheap9 (wheap9 0).avl_right →
      ∃ l, (wheap9 0).avl_left = some l ∧ 2 ≤ (wheap9 l).avl_height ∧
        (avl_height wheap9 (wheap9 l).avl_left < avl_height wheap9 (wheap9 l).avl_right →
          (wheap9 l).avl_right ≠ none) ∧
        (∀ r : Option Ptr, ((avl_rotate_left ⟨wheap9, r⟩ l).heap 0).avl_left ≠ none)) ∧
     (avl_height wheap9 (wheap9 0).avl_left - avl_height wheap9 (wheap9 0).avl_right < -1 →
      ∃ rr, (wheap9 0).avl_right = some rr ∧ 2 ≤ (wheap9 rr).avl_height ∧
        (avl_height wheap9 (wheap9 rr).avl_right < avl_height wheap9 (wheap9 rr).avl_left →
          (wheap9 rr).avl_left ≠ none) ∧
        (∀ r : Option Ptr, ((avl_rotate_right ⟨wheap9, r⟩ rr).heap 0).avl_right ≠ none))) := by
  have hT : IsTree wheap9 none (some 0)
      (T.node (T.node (T.node T.leaf 2 T.leaf) 1 T.leaf) 0 T.leaf) :=
    IsTree.node none 0 (T.node (T.node T.leaf 2 T.leaf) 1 T.leaf) T.leaf rfl rfl rfl
      (IsTree.node (some 0) 1 (T.node T.leaf 2 T.leaf) T.leaf rfl rfl rfl
        (IsTree.node (some 1) 2 T.leaf T.leaf rfl rfl rfl (IsTree.leaf _) (IsTree.leaf _))
        (IsTree.leaf _))
      (IsTree.leaf _)
  exact ⟨⟨hT, by decide, by decide⟩,
    C9_rebalance_safety wheap9 none 0 (T.node (T.node T.leaf 2 T.leaf) 1 T.leaf) T.leaf
      hT (by decide) (by decide)⟩

theorem norefH_setLeft {h : Heap} {p : Ptr} (hh : norefH h p) (q : Ptr) {v : Option Ptr}
    (hv : v ≠ some p) : norefH (setLeft h q v) p := by
  intro q2
  refine ⟨?_, ?_, ?_⟩
  · rw [setLeft_left]
    by_cases hq : q2 = q
    · simp [hq, hv]
    · simp [hq]; exact (hh q2).1
  · rw [setLeft_right]; exact (hh q2).2.1
  · rw [setLeft_parent]; exact (hh q2).2.2

theorem norefH_setRight {h : Heap} {p : Ptr} (hh : norefH h p) (q : Ptr) {v : Option Ptr}
    (hv : v ≠ some p) : norefH (setRight h q v) p := by
  intro q2
  refine ⟨?_, ?_, ?_⟩
  · rw [setRight_left]; exact (hh q2).1
  · rw [setRight_right]
    by_cases hq : q2 = q
    · simp [hq, hv]
    · simp [hq]; exact (hh q2).2.1
  · rw [setRight_parent]; exact (hh q2).2.2

theorem norefH_setParent {h : Heap} {p : Ptr} (hh : norefH h p) (q : Ptr) {v : Option Ptr}
    (hv : v ≠ some p) : norefH (setParent h q v) p := by
  intro q2
  refine ⟨?_, ?_, ?_⟩
  · rw [setParent_left]; exact (hh q2).1
  · rw [setParent_right]; exact (hh q2).2.1
  · rw [setParent_parent]
    by_cases hq : q2 = q
    · simp [hq, hv]
    · simp [hq]; exact (hh q2).2.2

theorem norefH_updh {h : Heap} {p : Ptr} (hh : norefH h p) (q : Ptr) :
    norefH (avl_update_height h q) p := by
  intro q2
  exact ⟨by rw [updh_left]; exact (hh q2).1, by rw [updh_right]; exact (hh q2).2.1,
    by rw [updh_parent]; exact (hh q2).2.2⟩

/-- A right rotation at a node other than `p` keeps `p` unreferenced. -/
theorem noref_rotate_right {s : S} {p y : Ptr} (hn : noref s.heap s.root p) (hyne : y ≠ p) :
    noref (avl_rotate_right s y).heap (avl_rotate_right s y).root p := by
  obtain ⟨hroot, hH⟩ := hn
  cases hxl : (s.heap y).avl_left with
  | none => simpa only [avl_rotate_right, hxl] using ⟨hroot, hH⟩
  | some x =>
    have hxne : x ≠ p := fun e => (hH y).1 (by rw [hxl, e])
    have hyne2 : (some y : Option Ptr) ≠ some p := fun e => hyne (Option.some.inj e)
    have hxne2 : (some x : Option Ptr) ≠ some p := fun e => hxne (Option.some.inj e)
    simp only [avl_rotate_right, hxl]
    set h1 := setLeft s.heap y ((s.heap x).avl_right) with hh1
    have hw1 : norefH h1 p := norefH_setLeft hH y ((hH x).2.1)
    cases hsc1 : (h1 x).avl_right with
    | none =>
      simp only [hsc1]
      set h3 := setParent h1 x ((h1 y).avl_parent) with hh3
      have hw3 : norefH h3 p := norefH_setParent hw1 x (hw1 y).2.2
      cases hsc2 : (h3 y).avl_parent with
      | none =>
        simp only [hsc2]
        exact ⟨hxne2, norefH_updh (norefH_updh
          (norefH_setParent (norefH_setRight hw3 x hyne2) y hxne2) y) x⟩
      | some gp =>
        simp only [hsc2]
        by_cases hsc3 : (h3 gp).avl_left = some y
        · simp only [if_pos hsc3]
          exact ⟨hroot, norefH_updh (norefH_updh (norefH_setParent
            (norefH_setRight (norefH_setLeft hw3 gp hxne2) x hyne2) y hxne2) y) x⟩
        · simp only [if_neg hsc3]
          exact ⟨hroot, norefH_updh (norefH_updh (norefH_setParent
            (norefH_setRight (norefH_setRight hw3 gp hxne2) x hyne2) y hxne2) y) x⟩
    | some xr =>
      simp only [hsc1]
      set h2 := setParent h1 xr (some y) with hh2
      have hw2 : norefH h2 p := norefH_setParent hw1 xr hyne2
      set h3 := setParent h2 x ((h2 y).avl_parent) with hh3
      have hw3 : norefH h3 p := norefH_setParent hw2 x (hw2 y).2.2
      cases hsc2 : (h3 y).avl_parent with
      | none =>
        simp only [hsc2]
        exact ⟨hxne2, norefH_updh (norefH_updh
          (norefH_setParent (norefH_setRight hw3 x hyne2) y hxne2) y) x⟩
      | some gp =>
        simp only [hsc2]
        by_cases hsc3 : (h3 gp).avl_left = some y
        · simp only [if_pos hsc3]
          exact ⟨hroot, norefH_updh (norefH_updh (norefH_setParent
            (norefH_setRight (norefH_setLeft hw3 gp hxne2) x hyne2) y hxne2) y) x⟩
        · simp only [if_neg hsc3]
          exact ⟨hroot, norefH_updh (norefH_updh (norefH_setParent
            (norefH_setRight (norefH_setRight hw3 gp hxne2) x hyne2) y hxne2) y) x⟩

/-- A left rotation at a node other than `p` keeps `p` unreferenced. -/
theorem noref_rotate_left {s : S} {p x : Ptr} (hn : noref s.heap s.root p) (hxne : x ≠ p) :
    noref (avl_rotate_left s x).heap (avl_rotate_left s x).root p := by
  obtain ⟨hroot, hH⟩ := hn
  cases hyr : (s.heap x).avl_right with
  | none => simpa only [avl_rotate_left, hyr] using ⟨hroot, hH⟩
  | some y =>
    have hyne : y ≠ p := fun e => (hH x).2.1 (by rw [hyr, e])
    have hyne2 : (some y : Option Ptr) ≠ some p := fun e => hyne (Option.some.inj e)
    have hxne2 : (some x : Option Ptr) ≠ some p := fun e => hxne (Option.some.inj e)
    simp only [avl_rotate_left, hyr]
    set h1 := setRight s.heap x ((s.heap y).avl_left) with hh1
    have hw1 : norefH h1 p := norefH_setRight hH x ((hH y).1)
    cases hsc1 : (h1 y).avl_left with
    | none =>
      simp only [hsc1]
      set h3 := setParent h1 y ((h1 x).avl_parent) with hh3
      have hw3 : norefH h3 p := norefH_setParent hw1 y (hw1 x).2.2
      cases hsc2 : (h3 x).avl_parent with
      | none =>
        simp only [hsc2]
        exact ⟨hyne2, norefH_updh (norefH_updh
          (norefH_setParent (norefH_setLeft hw3 y hxne2) x hyne2) x) y⟩
      | some gp =>
        simp only [hsc2]
        by_cases hsc3 : (h3 gp).avl_left = some x
        · simp only [if_pos hsc3]
          exact ⟨hroot, norefH_updh (norefH_updh (norefH_setParent
            (norefH_setLeft (norefH_setLeft hw3 gp hyne2) y hxne2) x hyne2) x) y⟩
        · simp only [if_neg hsc3]
          exact ⟨hroot, norefH_updh (norefH_updh (norefH_setParent
            (norefH_setLeft (norefH_setRight hw3 gp hyne2) y hxne2) x hyne2) x) y⟩
    | some yl =>
      simp only [hsc1]
      set h2 := setParent h1 yl (some x) with hh2
      have hw2 : norefH h2 p := norefH_setParent hw1 yl hxne2
      set h3 := setParent h2 y ((h2 x).avl_parent) with hh3
      have hw3 : norefH h3 p := norefH_setParent hw2 y (hw2 x).2.2
      cases hsc2 : (h3 x).avl_parent with
      | none =>
        simp only [hsc2]
        exact ⟨hyne2, norefH_updh (norefH_updh
          (norefH_setParent (norefH_setLeft hw3 y hxne2) x hyne2) x) y⟩
      | some gp =>
        simp only [hsc2]
        by_cases hsc3 : (h3 gp).avl_left = some x
        · simp only [if_pos hsc3]
          exact ⟨hroot, norefH_updh (norefH_updh (norefH_setParent
            (norefH_setLeft (norefH_setLeft hw3 gp hyne2) y hxne2) x hyne2) x) y⟩
        · simp only [if_neg hsc3]
          exact ⟨hroot, norefH_updh (norefH_updh (norefH_setParent
            (norefH_setLeft (norefH_setRight hw3 gp hyne2) y hxne2) x hyne2) x) y⟩

/-- One rebalance step at a node other than `p` keeps `p` unreferenced. -/
theorem noref_rebalance_body {s : S} {p q : Ptr} (hn : noref s.heap s.root p) (hq : q ≠ p) :
    noref (avl_rebalance_body s q).heap (avl_rebalance_body s q).root p := by
  have hn1 : noref (avl_update_height s.heap q) s.root p :=
    ⟨hn.1, norefH_updh hn.2 q⟩
  simp only [avl_rebalance_body]
  by_cases hA : avl_height (avl_update_height s.heap q)
      ((avl_update_height s.heap q) q).avl_left -
      avl_height (avl_update_height s.heap q) ((avl_update_height s.heap q) q).avl_right > 1
  · rw [if_pos hA]
    cases hL : ((avl_update_height s.heap q) q).avl_left with
    | none => exact hn1
    | some l =>
      have hlne : l ≠ p := fun e => ((norefH_updh hn.2 q) q).1 (by rw [hL, e])
      dsimp only
      by_cases hB : avl_height (avl_update_height s.heap q)
          ((avl_update_height s.heap q) l).avl_left <
          avl_height (avl_update_height s.heap q) ((avl_update_height s.heap q) l).avl_right
      · rw [if_pos hB]
        exact noref_rotate_right (noref_rotate_left hn1 hlne) hq
      · rw [if_neg hB]
        exact noref_rotate_right hn1 hq
  · rw [if_neg hA]
    by_cases hC : avl_height (avl_update_height s.heap q)
        ((avl_update_height s.heap q) q).avl_left -
        avl_height (avl_update_height s.heap q) ((avl_update_height s.heap q) q).avl_right < -1
    · rw [if_pos hC]
      cases hR : ((avl_update_height s.heap q) q).avl_right with
      | none => exact hn1
      | some rr =>
        have hrne : rr ≠ p := fun e => ((norefH_updh hn.2 q) q).2.1 (by rw [hR, e])
        dsimp only
        by_cases hB : avl_height (avl_update_height s.heap q)
            ((avl_update_height s.heap q) rr).avl_right <
            avl_height (avl_update_height s.heap q) ((avl_update_height s.heap q) rr).avl_left
        · rw [if_pos hB]
          exact noref_rotate_left (noref_rotate_right hn1 hrne) hq
        · rw [if_neg hB]
          exact noref_rotate_left hn1 hq
    · rw [if_neg hC]
      exact hn1

/-- The whole rebalance walk keeps `p` unreferenced when it starts away
from `p`; the walk can never visit `p` because no parent field reaches it. -/
theorem noref_rebalance_fuel {p : Ptr} :
    ∀ (fuel : Nat) (s : S) (n : Option Ptr), noref s.heap s.root p → n ≠ some p →
      noref (avl_rebalance_fuel fuel s n).heap (avl_rebalance_fuel fuel s n).root p := by
  intro fuel
  induction fuel with
  | zero => intro s n hn _; exact hn
  | succ f ih =>
    intro s n hn hne
    cases n with
    | none => exact hn
    | some q =>
      have hq : q ≠ p := fun e => hne (congrArg some e)
      have hbody := noref_rebalance_body hn hq
      exact ih (avl_rebalance_body s q) (((avl_rebalance_body s q).heap q).avl_parent)
        hbody (hbody.2 q).2.2

/-- An unreferenced pointer is unreachable from the Root. -/
theorem occursB_of_noref {p : Ptr} :
    ∀ (fuel : Nat) (h : Heap) (r : Option Ptr), noref h r p → occursB fuel h r p = false := by
  intro fuel
  induction fuel with
  | zero => intro h r _; rfl
  | succ f ih =>
    intro h r hn
    cases r with
    | none => rfl
    | some q =>
      have hq : q ≠ p := fun e => hn.1 (congrArg some e)
      simp only [occursB, Bool.or_eq_false_iff]
      refine ⟨⟨by simp [hq], ?_⟩, ?_⟩
      · exact ih h (h q).avl_left ⟨(hn.2 q).1, hn.2⟩
      · exact ih h (h q).avl_right ⟨(hn.2 q).2.1, hn.2⟩

/-- Core of the 0/1-child splice of avl_erase: the call equals a
rebalance from the former parent applied to a spliced state in which the
parent slot (or Root) holds the sole child, the child points back at the
former parent, and nothing references the erased node any more. -/
theorem erase_splice_core (fuel : Nat) (s : S) (p : Ptr)
    (Hone : (s.heap p).avl_left = none ∨ (s.heap p).avl_right = none)
    (Hpp : (s.heap p).avl_parent ≠ some p)
    (Hg : ∀ g, (s.heap p).avl_parent = some g → s.root ≠ some p ∧
        (((s.heap g).avl_left = some p ∧ (s.heap g).avl_right ≠ some p) ∨
         ((s.heap g).avl_left ≠ some p ∧ (s.heap g).avl_right = some p)))
    (Honly_l : ∀ q, (s.heap q).avl_left = some p → (s.heap p).avl_parent = some q)
    (Honly_r : ∀ q, (s.heap q).avl_right = some p → (s.heap p).avl_parent = some q)
    (Hpar : ∀ q, (s.heap q).avl_parent = some p →
      some q = (s.heap p).avl_left ∨ some q = (s.heap p).avl_right)
    (Hself : (s.heap p).avl_left ≠ some p ∧ (s.heap p).avl_right ≠ some p) :
    ∃ s2 : S,
      avl_erase fuel s p = avl_rebalance_fuel fuel s2 ((s.heap p).avl_parent) ∧
      (∀ c, (match (s.heap p).avl_left with
              | some l => some l
              | none => (s.heap p).avl_right) = some c →
        (s2.heap c).avl_parent = (s.heap p).avl_parent) ∧
      ((s.heap p).avl_parent = none →
        s2.root = (match (s.heap p).avl_left with
                    | some l => some l
                    | none => (s.heap p).avl_right)) ∧
      (∀ g, (s.heap p).avl_parent = some g → s2.root = s.root ∧
        ((s.heap g).avl_left = some p →
          (s2.heap g).avl_left = (match (s.heap p).avl_left with
                                   | some l => some l
                                   | none => (s.heap p).avl_right) ∧
          (s2.heap g).avl_right = (s.heap g).avl_right) ∧
        ((s.heap g).avl_left ≠ some p → (s.heap g).avl_right = some p →
          (s2.heap g).avl_right = (match (s.heap p).avl_left with
                                    | some l => some l
                                    | none => (s.heap p).avl_right) ∧
          (s2.heap g).avl_left = (s.heap g).avl_left)) ∧
      noref s2.heap s2.root p := by
  cases hpl : (s.heap p).avl_left with
  | some c =>
    have hpr : (s.heap p).avl_right = none := by
      rcases Hone with h | h
      · rw [hpl] at h; exact Option.noConfusion h
      · exact h
    have hcne : c ≠ p := fun e => Hself.1 (by rw [hpl, e])
    have hcne2 : (some c : Option Ptr) ≠ some p := fun e => hcne (Option.some.inj e)
    have hpar1 : ∀ po q, (setParent s.heap c po q).avl_parent = some p →
        po = some p ∨ (q ≠ c ∧ (s.heap q).avl_parent = some p) := by
      intro po q e
      rw [setParent_parent] at e
      by_cases hqc : q = c
      · rw [if_pos hqc] at e; exact Or.inl e
      · rw [if_neg hqc] at e; exact Or.inr ⟨hqc, e⟩
    have hparX : ∀ q, (setParent s.heap c ((s.heap p).avl_parent) q).avl_parent ≠ some p := by
      intro q e
      rcases hpar1 _ q e with h | h
      · exact Hpp h
      · rcases Hpar q h.2 with h2 | h2
        · rw [hpl] at h2
          exact h.1 (Option.some.inj h2)
        · rw [hpr] at h2
          exact Option.noConfusion h2
    cases hpo : (s.heap p).avl_parent with
    | none =>
      refine ⟨{ heap := setParent s.heap c none, root := some c }, ?_, ?_, ?_, ?_, ?_⟩
      · simp only [avl_erase, hpl, hpr, hpo]
      · intro c2 hc2
        dsimp only at hc2
        obtain rfl : c = c2 := Option.some.inj hc2
        simp
      · intro _; rfl
      · intro g hg; exact Option.noConfusion hg
      · refine ⟨fun e => hcne (Option.some.inj e), fun q => ⟨?_, ?_, ?_⟩⟩
        · rw [setParent_left]
          intro e
          rw [Honly_l q e] at hpo; exact Option.noConfusion hpo
        · rw [setParent_right]
          intro e
          rw [Honly_r q e] at hpo; exact Option.noConfusion hpo
        · rw [← hpo]; exact hparX q
    | some g =>
      obtain ⟨hrootne, hslot⟩ := Hg g hpo
      have hparX2 : ∀ q, (setParent s.heap c (some g) q).avl_parent ≠ some p := by
        rw [← hpo]; exact hparX
      rcases hslot with ⟨hgl, hgr⟩ | ⟨hgl, hgr⟩
      · have hcond : (setParent s.heap c (some g) g).avl_left = some p := by
          rw [setParent_left]; exact hgl
        refine ⟨{ heap := setLeft (setParent s.heap c (some g)) g (some c), root := s.root },
          ?_, ?_, ?_, ?_, ?_⟩
        · simp only [avl_erase, hpl, hpr, hpo, if_pos hcond]
        · intro c2 hc2
          dsimp only at hc2
          obtain rfl : c = c2 := Option.some.inj hc2
          rw [setLeft_parent, setParent_parent, if_pos rfl]
        · intro hcon; exact Option.noConfusion hcon
        · intro g2 hg2
          obtain rfl : g = g2 := Option.some.inj hg2
          refine ⟨rfl, fun _ => ⟨by simp, ?_⟩, fun hcon _ => absurd hgl hcon⟩
          rw [setLeft_right, setParent_right]
        · refine ⟨hrootne, fun q => ⟨?_, ?_, ?_⟩⟩
          · rw [setLeft_left]
            by_cases hqg : q = g
            · rw [if_pos hqg]; exact hcne2
            · rw [if_neg hqg, setParent_left]
              intro e
              exact hqg (Option.some.inj ((Honly_l q e).symm.trans hpo))
          · rw [setLeft_right, setParent_right]
            intro e
            have hq : q = g := Option.some.inj ((Honly_r q e).symm.trans hpo)
            rw [hq] at e
            exact hgr e
          · rw [setLeft_parent]; exact hparX2 q
      · have hcond : ¬((setParent s.heap c (some g) g).avl_left = some p) := by
          rw [setParent_left]; exact hgl
        refine ⟨{ heap := setRight (setParent s.heap c (some g)) g (some c), root := s.root },
          ?_, ?_, ?_, ?_, ?_⟩
        · simp only [avl_erase, hpl, hpr, hpo, if_neg hcond]
        · intro c2 hc2
          dsimp only at hc2
          obtain rfl : c = c2 := Option.some.inj hc2
          rw [setRight_parent, setParent_parent, if_pos rfl]
        · intro hcon; exact Option.noConfusion hcon
        · intro g2 hg2
          obtain rfl : g = g2 := Option.some.inj hg2
          refine ⟨rfl, fun hcon => absurd hcon hgl, fun _ _ => ⟨by simp, ?_⟩⟩
          rw [setRight_left, setParent_left]
        · refine ⟨hrootne, fun q => ⟨?_, ?_, ?_⟩⟩
          · rw [setRight_left, setParent_left]
            intro e
            have hq : q = g := Option.some.inj ((Honly_l q e).symm.trans hpo)
            rw [hq] at e
            exact hgl e
          · rw [setRight_right]
            by_cases hqg : q = g
            · rw [if_pos hqg]; exact hcne2
            · rw [if_neg hqg, setParent_right]
              intro e
              exact hqg (Option.some.inj ((Honly_r q e).symm.trans hpo))
          · rw [setRight_parent]; exact hparX2 q
  | none =>
    cases hpr : (s.heap p).avl_right with
    | some c =>
      have hcne : c ≠ p := fun e => Hself.2 (by rw [hpr, e])
      have hcne2 : (some c : Option Ptr) ≠ some p := fun e => hcne (Option.some.inj e)
      have hpar1 : ∀ po q, (setParent s.heap c po q).avl_parent = some p →
          po = some p ∨ (q ≠ c ∧ (s.heap q).avl_parent = some p) := by
        intro po q e
        rw [setParent_parent] at e
        by_cases hqc : q = c
        · rw [if_pos hqc] at e; exact Or.inl e
        · rw [if_neg hqc] at e; exact Or.inr ⟨hqc, e⟩
      have hparX : ∀ q, (setParent s.heap c ((s.heap p).avl_parent) q).avl_parent ≠ some p := by
        intro q e
        rcases hpar1 _ q e with h | h
        · exact Hpp h
        · rcases Hpar q h.2 with h2 | h2
          · rw [hpl] at h2
            exact Option.noConfusion h2
          · rw [hpr] at h2
            exact h.1 (Option.some.inj h2)
      cases hpo : (s.heap p).avl_parent with
      | none =>
        refine ⟨{ heap := setParent s.heap c none, root := some c }, ?_, ?_, ?_, ?_, ?_⟩
        · simp only [avl_erase, hpl, hpr, hpo]
        · intro c2 hc2
          dsimp only at hc2
          obtain rfl : c = c2 := Option.some.inj hc2
          simp
        · intro _; rfl
        · intro g hg; exact Option.noConfusion hg
        · refine ⟨fun e => hcne (Option.some.inj e), fun q => ⟨?_, ?_, ?_⟩⟩
          · rw [setParent_left]
            intro e
            rw [Honly_l q e] at hpo; exact Option.noConfusion hpo
          · rw [setParent_right]
            intro e
            rw [Honly_r q e] at hpo; exact Option.noConfusion hpo
          · rw [← hpo]; exact hparX q
      | some g =>
        obtain ⟨hrootne, hslot⟩ := Hg g hpo
        have hparX2 : ∀ q, (setParent s.heap c (some g) q).avl_parent ≠ some p := by
          rw [← hpo]; exact hparX
        rcases hslot with ⟨hgl, hgr⟩ | ⟨hgl, hgr⟩
        · have hcond : (setParent s.heap c (some g) g).avl_left = some p := by
            rw [setParent_left]; exact hgl
          refine ⟨{ heap := setLeft (setParent s.heap c (some g)) g (some c), root := s.root },
            ?_, ?_, ?_, ?_, ?_⟩
          · simp only [avl_erase, hpl, hpr, hpo, if_pos hcond]
          · intro c2 hc2
            dsimp only at hc2
            obtain rfl : c = c2 := Option.some.inj hc2
            rw [setLeft_parent, setParent_parent, if_pos rfl]
          · intro hcon; exact Option.noConfusion hcon
          · intro g2 hg2
            obtain rfl : g = g2 := Option.some.inj hg2
            refine ⟨rfl, fun _ => ⟨by simp, ?_⟩, fun hcon _ => absurd hgl hcon⟩
            rw [setLeft_right, setParent_right]
          · refine ⟨hrootne, fun q => ⟨?_, ?_, ?_⟩⟩
            · rw [setLeft_left]
              by_cases hqg : q = g
              · rw [if_pos hqg]; exact hcne2
              · rw [if_neg hqg, setParent_left]
                intro e
                exact hqg (Option.some.inj ((Honly_l q e).symm.trans hpo))
            · rw [setLeft_right, setParent_right]
              intro e
              have hq : q = g := Option.some.inj ((Honly_r q e).symm.trans hpo)
              rw [hq] at e
              exact hgr e
            · rw [setLeft_parent]; exact hparX2 q
        · have hcond : ¬((setParent s.heap c (some g) g).avl_left = some p) := by
            rw [setParent_left]; exact hgl
          refine ⟨{ heap := setRight (setParent s.heap c (some g)) g (some c), root := s.root },
            ?_, ?_, ?_, ?_, ?_⟩
          · simp only [avl_erase, hpl, hpr, hpo, if_neg hcond]
          · intro c2 hc2
            dsimp only at hc2
            obtain rfl : c = c2 := Option.some.inj hc2
            rw [setRight_parent, setParent_parent, if_pos rfl]
          · intro hcon; exact Option.noConfusion hcon
          · intro g2 hg2
            obtain rfl : g = g2 := Option.some.inj hg2
            refine ⟨rfl, fun hcon => absurd hcon hgl, fun _ _ => ⟨by simp, ?_⟩⟩
            rw [setRight_left, setParent_left]
          · refine ⟨hrootne, fun q => ⟨?_, ?_, ?_⟩⟩
            · rw [setRight_left, setParent_left]
              intro e
              have hq : q = g := Option.some.inj ((Honly_l q e).symm.trans hpo)
              rw [hq] at e
              exact hgl e
            · rw [setRight_right]
              by_cases hqg : q = g
              · rw [if_pos hqg]; exact hcne2
              · rw [if_neg hqg, setParent_right]
                intro e
                exact hqg (Option.some.inj ((Honly_r q e).symm.trans hpo))
            · rw [setRight_parent]; exact hparX2 q
    | none =>
      cases hpo : (s.heap p).avl_parent with
      | none =>
        refine ⟨{ heap := s.heap, root := none }, ?_, ?_, ?_, ?_, ?_⟩
        · simp only [avl_erase, hpl, hpr, hpo]
        · intro c2 hc2
          dsimp only at hc2
          exact Option.noConfusion hc2
        · intro _; rfl
        · intro g hg; exact Option.noConfusion hg
        · refine ⟨fun e => Option.noConfusion e, fun q => ⟨?_, ?_, ?_⟩⟩
          · intro e
            rw [Honly_l q e] at hpo; exact Option.noConfusion hpo
          · intro e
            rw [Honly_r q e] at hpo; exact Option.noConfusion hpo
          · intro e
            rcases Hpar q e with h | h
            · rw [hpl] at h; exact Option.noConfusion h
            · rw [hpr] at h; exact Option.noConfusion h
      | some g =>
        obtain ⟨hrootne, hslot⟩ := Hg g hpo
        have hparC : ∀ q, (s.heap q).avl_parent ≠ some p := by
          intro q e
          rcases Hpar q e with h | h
          · rw [hpl] at h; exact Option.noConfusion h
          · rw [hpr] at h; exact Option.noConfusion h
        rcases hslot with ⟨hgl, hgr⟩ | ⟨hgl, hgr⟩
        · refine ⟨{ heap := setLeft s.heap g none, root := s.root }, ?_, ?_, ?_, ?_, ?_⟩
          · simp only [avl_erase, hpl, hpr, hpo, if_pos hgl]
          · intro c2 hc2
            dsimp only at hc2
            exact Option.noConfusion hc2
          · intro hcon; exact Option.noConfusion hcon
          · intro g2 hg2
            obtain rfl : g = g2 := Option.some.inj hg2
            refine ⟨rfl, fun _ => ⟨by simp, by rw [setLeft_right]⟩,
              fun hcon _ => absurd hgl hcon⟩
          · refine ⟨hrootne, fun q => ⟨?_, ?_, ?_⟩⟩
            · rw [setLeft_left]
              by_cases hqg : q = g
              · rw [if_pos hqg]; exact fun e => Option.noConfusion e
              · rw [if_neg hqg]
                intro e
                exact hqg (Option.some.inj ((Honly_l q e).symm.trans hpo))
            · rw [setLeft_right]
              intro e
              have hq : q = g := Option.some.inj ((Honly_r q e).symm.trans hpo)
              rw [hq] at e
              exact hgr e
            · rw [setLeft_parent]; exact hparC q
        · refine ⟨{ heap := setRight s.heap g none, root := s.root }, ?_, ?_, ?_, ?_, ?_⟩
          · simp only [avl_erase, hpl, hpr, hpo, if_neg hgl]
          · intro c2 hc2
            dsimp only at hc2
            exact Option.noConfusion hc2
          · intro hcon; exact Option.noConfusion hcon
          · intro g2 hg2
            obtain rfl : g = g2 := Option.some.inj hg2
            refine ⟨rfl, fun hcon => absurd hcon hgl,
              fun _ _ => ⟨by simp, by rw [setRight_left]⟩⟩
          · refine ⟨hrootne, fun q => ⟨?_, ?_, ?_⟩⟩
            · rw [setRight_left]
              intro e
              have hq : q = g := Option.some.inj ((Honly_l q e).symm.trans hpo)
              rw [hq] at e
              exact hgl e
            · rw [setRight_right]
              by_cases hqg : q = g
              · rw [if_pos hqg]; exact fun e => Option.noConfusion e
              · rw [if_neg hqg]
                intro e
                exact hqg (Option.some.inj ((Honly_r q e).symm.trans hpo))
            · rw [setRight_parent]; exact hparC q

/-- Claim C5: for every tree and node with zero or one child (under the
back-pointer well-formedness facts), avl_erase rewrites the node's
parent's slot — or the Root when the node was the root — to the sole
child or to empty, updates the child's parent back-reference to the
former parent, starts the rebalance walk at the former parent, and
afterwards the node is unreachable from the Root. -/
theorem C5_erase_splice (fuel : Nat) (s : S) (p : Ptr)
    (Hone : (s.heap p).avl_left = none ∨ (s.heap p).avl_right = none)
    (Hpp : (s.heap p).avl_parent ≠ some p)
    (Hg : ∀ g, (s.heap p).avl_parent = some g → s.root ≠ some p ∧
        (((s.heap g).avl_left = some p ∧ (s.heap g).avl_right ≠ some p) ∨
         ((s.heap g).avl_left ≠ some p ∧ (s.heap g).avl_right = some p)))
    (Honly_l : ∀ q, (s.heap q).avl_left = some p → (s.heap p).avl_parent = some q)
    (Honly_r : ∀ q, (s.heap q).avl_right = some p → (s.heap p).avl_parent = some q)
    (Hpar : ∀ q, (s.heap q).avl_parent = some p →
      some q = (s.heap p).avl_left ∨ some q = (s.heap p).avl_right)
    (Hself : (s.heap p).avl_left ≠ some p ∧ (s.heap p).avl_right ≠ some p) :
    (∃ s2 : S,
      avl_erase fuel s p = avl_rebalance_fuel fuel s2 ((s.heap p).avl_parent) ∧
      (∀ c, (match (s.heap p).avl_left with
              | some l => some l
              | none => (s.heap p).avl_right) = some c →
        (s2.heap c).avl_parent = (s.heap p).avl_parent) ∧
      ((s.heap p).avl_parent = none →
        s2.root = (match (s.heap p).avl_left with
                    | some l => some l
                    | none => (s.heap p).avl_right)) ∧
      (∀ g, (s.heap p).avl_parent = some g → s2.root = s.root ∧
        ((s.heap g).avl_left = some p →
          (s2.heap g).avl_left = (match (s.heap p).avl_left with
                                   | some l => some l
                                   | none => (s.heap p).avl_right) ∧
          (s2.heap g).avl_right = (s.heap g).avl_right) ∧
        ((s.heap g).avl_left ≠ some p → (s.heap g).avl_right = some p →
          (s2.heap g).avl_right = (match (s.heap p).avl_left with
                                    | some l => some l
                                    | none => (s.heap p).avl_right) ∧
          (s2.heap g).avl_left = (s.heap g).avl_left))) ∧
    noref (avl_erase fuel s p).heap (avl_erase fuel s p).root p ∧
    (∀ f2, occursB f2 (avl_erase fuel s p).heap (avl_erase fuel s p).root p = false) := by
  obtain ⟨s2, hEQ, hc, hr0, hrg, hnor⟩ :=
    erase_splice_core fuel s p Hone Hpp Hg Honly_l Honly_r Hpar Hself
  have hfinal : noref (avl_erase fuel s p).heap (avl_erase fuel s p).root p := by
    rw [hEQ]
    exact noref_rebalance_fuel fuel s2 ((s.heap p).avl_parent) hnor Hpp
  exact ⟨⟨s2, hEQ, hc, hr0, hrg⟩, hfinal, fun f2 => occursB_of_noref f2 _ _ hfinal⟩

/-- Witness for claim C5: erasing the leaf 1 from the two-node tree of
wsR, with all well-formedness hypotheses discharged concretely. -/
theorem C5_erase_splice_witness :
    (((wsR.heap 1).avl_left = none ∨ (wsR.heap 1).avl_right = none) ∧
     (wsR.heap 1).avl_parent ≠ some 1 ∧
     (∀ g, (wsR.heap 1).avl_parent = some g → wsR.root ≠ some 1 ∧
        (((wsR.heap g).avl_left = some 1 ∧ (wsR.heap g).avl_right ≠ some 1) ∨
         ((wsR.heap g).avl_left ≠ some 1 ∧ (wsR.heap g).avl_right = some 1))) ∧
     (∀ q, (wsR.heap q).avl_left = some 1 → (wsR.heap 1).avl_parent = some q) ∧
     (∀ q, (wsR.heap q).avl_right = some 1 → (wsR.heap 1).avl_parent = some q) ∧
     (∀ q, (wsR.heap q).avl_parent = some 1 →
       some q = (wsR.heap 1).avl_left ∨ some q = (wsR.heap 1).avl_right) ∧
     ((wsR.heap 1).avl_left ≠ some 1 ∧ (wsR.heap 1).avl_right ≠ some 1)) ∧
    ((∃ s2 : S,
      avl_erase 5 wsR 1 = avl_rebalance_fuel 5 s2 ((wsR.heap 1).avl_parent) ∧
      (∀ c, (match (wsR.heap 1).avl_left with
              | some l => some l
              | none => (wsR.heap 1).avl_right) = some c →
        (s2.heap c).avl_parent = (wsR.heap 1).avl_parent) ∧
      ((wsR.heap 1).avl_parent = none →
        s2.root = (match (wsR.heap 1).avl_left with
                    | some l => some l
                    | none => (wsR.heap 1).avl_right)) ∧
      (∀ g, (wsR.heap 1).avl_parent = some g → s2.root = wsR.root ∧
        ((wsR.heap g).avl_left = some 1 →
          (s2.heap g).avl_left = (match (wsR.heap 1).avl_left with
                                   | some l => some l
                                   | none => (wsR.heap 1).avl_right) ∧
          (s2.heap g).avl_right = (wsR.heap g).avl_right) ∧
        ((wsR.heap g).avl_left ≠ some 1 → (wsR.heap g).avl_right = some 1 →
          (s2.heap g).avl_right = (match (wsR.heap 1).avl_left with
                                    | some l => some l
                                    | none => (wsR.heap 1).avl_right) ∧
          (s2.heap g).avl_left = (wsR.heap g).avl_left))) ∧
    noref (avl_erase 5 wsR 1).heap (avl_erase 5 wsR 1).root 1 ∧
    (∀ f2, occursB f2 (avl_erase 5 wsR 1).heap (avl_erase 5 wsR 1).root 1 = false)) := by
  have hOne : (wsR.heap 1).avl_left = none ∨ (wsR.heap 1).avl_right = none := Or.inl rfl
  have hPp : (wsR.heap 1).avl_parent ≠ some 1 := by decide
  have hGg : ∀ g, (wsR.heap 1).avl_parent = some g → wsR.root ≠ some 1 ∧
      (((wsR.heap g).avl_left = some 1 ∧ (wsR.heap g).avl_right ≠ some 1) ∨
       ((wsR.heap g).avl_left ≠ some 1 ∧ (wsR.heap g).avl_right = some 1)) := by
    intro g hg
    obtain rfl : 0 = g := Option.some.inj hg
    exact ⟨by decide, Or.inl ⟨rfl, by decide⟩⟩
  have hOl : ∀ q, (wsR.heap q).avl_left = some 1 → (wsR.heap 1).avl_parent = some q := by
    intro q e
    by_cases h0 : q = 0
    · subst h0; rfl
    · exfalso
      by_cases h1 : q = 1
      · subst h1; simp [wsR, wheapR] at e
      · simp [wsR, wheapR, h0, h1] at e
  have hOr : ∀ q, (wsR.heap q).avl_right = some 1 → (wsR.heap 1).avl_parent = some q := by
    intro q e
    exfalso
    by_cases h0 : q = 0
    · subst h0; simp [wsR, wheapR] at e
    · by_cases h1 : q = 1
      · subst h1; simp [wsR, wheapR] at e
      · simp [wsR, wheapR, h0, h1] at e
  have hPa : ∀ q, (wsR.heap q).avl_parent = some 1 →
      some q = (wsR.heap 1).avl_left ∨ some q = (wsR.heap 1).avl_right := by
    intro q e
    exfalso
    by_cases h0 : q = 0
    · subst h0; simp [wsR, wheapR] at e
    · by_cases h1 : q = 1
      · subst h1; simp [wsR, wheapR] at e
      · simp [wsR, wheapR, h0, h1] at e
  have hSe : (wsR.heap 1).avl_left ≠ some 1 ∧ (wsR.heap 1).avl_right ≠ some 1 := by decide
  exact ⟨⟨hOne, hPp, hGg, hOl, hOr, hPa, hSe⟩,
    C5_erase_splice 5 wsR 1 hOne hPp hGg hOl hOr hPa hSe⟩

theorem subtree_min_eq_walkLeft :
    ∀ (fuel : Nat) (h : Heap) (p : Ptr),
      avl_subtree_min fuel h (some p) = walkLeft_spec fuel h p := by
  intro fuel
  induction fuel with
  | zero => intro h p; rfl
  | succ f ih =>
    intro h p
    simp only [avl_subtree_min, walkLeft_spec]
    cases hL : (h p).avl_left with
    | none => rfl
    | some l => exact ih h l

theorem subtree_min_none (fuel : Nat) (h : Heap) :
    avl_subtree_min fuel h none = none := by
  cases fuel <;> rfl

/-- The ascend loop agrees with the spec formulation on well-formed
heaps whose parent chain from the node reaches the root in time. -/
theorem ascend_eq_spec :
    ∀ (fuel : Nat) (h : Heap) (p : Ptr),
      (∀ q par, (h q).avl_parent = some par →
        ((h par).avl_left = some q ∧ (h par).avl_right ≠ some q) ∨
        ((h par).avl_right = some q ∧ (h par).avl_left ≠ some q)) →
      chainB fuel h (some p) = true →
      avl_next_ascend fuel h p = ascend_spec fuel h p := by
  intro fuel
  induction fuel with
  | zero =>
    intro h p _ hchain
    simp [chainB, Option.isNone] at hchain
  | succ f ih =>
    intro h p hwf hchain
    simp only [avl_next_ascend, ascend_spec]
    cases hpar : (h p).avl_parent with
    | none => rfl
    | some par =>
      have hchain2 : chainB f h (some par) = true := by
        simp only [chainB] at hchain
        rw [hpar] at hchain
        exact hchain
      dsimp only
      rcases hwf p par hpar with ⟨hl, hr⟩ | ⟨hr, hl⟩
      · rw [if_neg hr, if_pos hl]
      · rw [if_pos hr, if_neg hl]
        exact ih h par hwf hchain2

/-- Claim C8: avl_first walks left links from the root until a node with
no left child and yields no node on the empty tree, exactly as the spec
words it; and avl_next yields the leftmost descendant of the right
subtree when present and otherwise the first ancestor reached via a
left-child step (no successor when the root is reached without ever
being a left child), on any heap with consistent child/parent links
whose parent chain terminates within the given fuel. -/
theorem C8_first_next_spec :
    (∀ (fuel : Nat) (s : S), avl_first fuel s = avl_first_spec fuel s) ∧
    (∀ (fuel : Nat) (h : Heap) (p : Ptr),
      (∀ q par, (h q).avl_parent = some par →
        ((h par).avl_left = some q ∧ (h par).avl_right ≠ some q) ∨
        ((h par).avl_right = some q ∧ (h par).avl_left ≠ some q)) →
      chainB fuel h (some p) = true →
      avl_next fuel h p = avl_next_spec fuel h p) := by
  constructor
  · intro fuel s
    simp only [avl_first, avl_first_spec]
    cases hr : s.root with
    | none => exact subtree_min_none fuel s.heap
    | some r => exact subtree_min_eq_walkLeft fuel s.heap r
  · intro fuel h p hwf hchain
    simp only [avl_next, avl_next_spec]
    cases hR : (h p).avl_right with
    | none => exact ascend_eq_spec fuel h p hwf hchain
    | some r => exact subtree_min_eq_walkLeft fuel h r

/-- Witness for claim C8: first and next computed on the concrete
two-node tree of wsR, agreeing with the spec formulations. -/
theorem C8_first_next_spec_witness :
    ((∀ q par, (wsR.heap q).avl_parent = some par →
        ((wsR.heap par).avl_left = some q ∧ (wsR.heap par).avl_right ≠ some q) ∨
        ((wsR.heap par).avl_right = some q ∧ (wsR.heap par).avl_left ≠ some q)) ∧
     chainB 5 wsR.heap (some 1) = true) ∧
    avl_first 5 wsR = avl_first_spec 5 wsR ∧
    avl_next 5 wsR.heap 1 = avl_next_spec 5 wsR.heap 1 := by
  have hwf : ∀ q par, (wsR.heap q).avl_parent = some par →
      ((wsR.heap par).avl_left = some q ∧ (wsR.heap par).avl_right ≠ some q) ∨
      ((wsR.heap par).avl_right = some q ∧ (wsR.heap par).avl_left ≠ some q) := by
    intro q par e
    by_cases h0 : q = 0
    · subst h0; simp [wsR, wheapR] at e
    · by_cases h1 : q = 1
      · subst h1
        obtain rfl : 0 = par := Option.some.inj e
        exact Or.inl ⟨rfl, by decide⟩
      · simp [wsR, wheapR, h0, h1] at e
  have hchain : chainB 5 wsR.heap (some 1) = true := by decide
  exact ⟨⟨hwf, hchain⟩, C8_first_next_spec.1 5 wsR,
    C8_first_next_spec.2 5 wsR.heap 1 hwf hchain⟩
